import Mathlib

/-!
# Supervision of per-namespace control loops

A verification development for the two loop supervisors of the repository:

* `k8s.StartLoops` (`src/k8s/loops.go`), the fail-fast supervisor;
* `claim.StartControlLoops` (`src/k8s/claim/loops.go`), the continue-on-error
  supervisor.

Both functions are concurrent Go code.  Each is embedded as a labelled
transition system: a state holds the program counter of the supervisor's own
thread, the state of every goroutine it has launched and the trace of the
observable actions performed so far; a label names which thread (or which part
of the environment: the caller reading `errCh`, the caller firing `stopCh`)
moves next.  A run is a list of labels; a label that is not enabled in the
current state leaves the state unchanged.  Statements quantified over every
list of labels are therefore statements about every interleaving.
-/

/-- A Go `error` value, identified by the text its `Error()` method returns. -/
structure GoError where
  Error : String
deriving DecidableEq, Repr

namespace K8s

/-- The four channels `StartLoops` deals with: the two it receives from its
caller and the two it makes itself (lines 16 and 17). -/
inductive Chan where
  | stopCh
  | errCh
  | internalStopCh
  | internalErrCh
deriving DecidableEq, Repr

/-- Observable actions of the supervisor thread of `StartLoops`. -/
inductive Action where
  /-- Line 19-21: `go func(ns string) { StartLoop(cl, ns, stop, err) }(ns)`. -/
  | go (ns : String) (stop : Chan) (err : Chan)
  /-- Line 24: the select took `case err := <-internalErrCh`. -/
  | recvErr (e : GoError)
  /-- Line 27: the select took `case <-stopCh`. -/
  | recvStop
  /-- A completed send `c <- e`. -/
  | send (c : Chan) (e : GoError)
  /-- A completed `close(c)`. -/
  | close (c : Chan)
deriving DecidableEq, Repr

/-- Program counter of the supervisor thread. -/
inductive Pc where
  /-- Lines 18-22: in the `for ... range namespaces` loop, with the elements
  still to be visited. -/
  | range (rest : List String)
  /-- Line 23: blocked in the `select`. -/
  | select
  /-- Line 25: blocked in `errCh <- err`. -/
  | sendErr (e : GoError)
  /-- Line 26: about to run `close(internalStopCh)` in the error branch. -/
  | closeOnErr
  /-- Line 28: about to run `close(internalStopCh)` in the stop branch. -/
  | closeOnStop
  /-- Line 30: the function has returned. -/
  | done
  /-- The runtime panic of closing an already closed channel. -/
  | panicked
deriving DecidableEq, Repr

/-- Modelled from the spec: the state of one `StartLoop` goroutine.
`StartLoop` itself is not among the sources; section 4.2 of the spec gives its
contract: it runs until it observes its stop channel or until it fails, and a
failure is reported once on its error channel, after which it terminates. -/
inductive LoopState where
  | running
  /-- Blocked in the send of `e` on the (unbuffered) `internalErrCh`. -/
  | failing (e : GoError)
  | exited
deriving DecidableEq, Repr

/-- The state of one run of `StartLoops`. -/
structure State where
  pc : Pc
  /-- The launched goroutines in launch order, each with the value bound to
  its `ns` parameter. -/
  loops : List (String × LoopState)
  /-- Whether the caller's `stopCh` is ready to be received from. -/
  stopFired : Bool
  /-- Whether `internalStopCh` has been closed. -/
  internalStopClosed : Bool
  trace : List Action
deriving DecidableEq, Repr

/-- Who moves next. -/
inductive Label where
  /-- The supervisor thread runs its next non-blocking statement. -/
  | main
  /-- The select takes `case err := <-internalErrCh`, meeting the pending send
  of goroutine `i`. -/
  | selectErr (i : Nat)
  /-- The select takes `case <-stopCh`. -/
  | selectStop
  /-- The caller receives from `errCh`, completing a pending `errCh <- err`. -/
  | callerRecv
  /-- The caller fires (closes) `stopCh`. -/
  | callerStop
  /-- Goroutine `i` fails with `e` and starts reporting it. -/
  | loopFail (i : Nat) (e : GoError)
  /-- Goroutine `i` observes the closed `internalStopCh` and terminates. -/
  | loopStop (i : Nat)
deriving DecidableEq, Repr

/-- The state at entry of `StartLoops`, after lines 16 and 17. -/
def init (namespaces : List String) : State :=
  { pc := .range namespaces, loops := [], stopFired := false,
    internalStopClosed := false, trace := [] }

/-- Line 26 and line 28: `close(internalStopCh)`, then fall out of the select and
return.  Closing a closed channel panics. -/
def closeInternalStop (s : State) : State :=
  if s.internalStopClosed then { s with pc := .panicked }
  else { s with pc := .done, internalStopClosed := true,
                trace := s.trace ++ [.close .internalStopCh] }

/-- One step of `StartLoops` and its goroutines; `none` when the label is not
enabled. -/
def step (s : State) : Label → Option State
  | .main =>
    match s.pc with
    | .range (ns :: rest) =>
      some { s with pc := .range rest, loops := s.loops ++ [(ns, .running)],
                    trace := s.trace ++ [.go ns .internalStopCh .internalErrCh] }
    | .range [] => some { s with pc := .select }
    | .closeOnErr => some (closeInternalStop s)
    | .closeOnStop => some (closeInternalStop s)
    | _ => none
  | .selectErr i =>
    match s.pc, s.loops[i]? with
    | .select, some (ns, .failing e) =>
      some { s with pc := .sendErr e, loops := s.loops.set i (ns, .exited),
                    trace := s.trace ++ [.recvErr e] }
    | _, _ => none
  | .selectStop =>
    match s.pc, s.stopFired with
    | .select, true => some { s with pc := .closeOnStop, trace := s.trace ++ [.recvStop] }
    | _, _ => none
  | .callerRecv =>
    match s.pc with
    | .sendErr e => some { s with pc := .closeOnErr, trace := s.trace ++ [.send .errCh e] }
    | _ => none
  | .callerStop => some { s with stopFired := true }
  | .loopFail i e =>
    match s.loops[i]? with
    | some (ns, .running) => some { s with loops := s.loops.set i (ns, .failing e) }
    | _ => none
  | .loopStop i =>
    match s.internalStopClosed, s.loops[i]? with
    | true, some (ns, .running) => some { s with loops := s.loops.set i (ns, .exited) }
    | true, some (ns, .failing _) => some { s with loops := s.loops.set i (ns, .exited) }
    | _, _ => none

/-- Run a schedule from a state; a label that is not enabled is skipped. -/
def run (s : State) : List Label → State
  | [] => s
  | l :: ls => run ((step s l).getD s) ls

/-- The function `StartLoops` of `src/k8s/loops.go`: the state reached on
`namespaces` under the schedule `sched`. -/
def StartLoops (namespaces : List String) (sched : List Label) : State :=
  run (init namespaces) sched

/-- Whether an action is a send or a close, the two operations the supervisor
performs on channels other than its select. -/
def isEffect : Action → Bool
  | .send _ _ => true
  | .close _ => true
  | _ => false

/-- Whether an action records a branch of the select being taken. -/
def isBranch : Action → Bool
  | .recvErr _ => true
  | .recvStop => true
  | _ => false

/-- The launch an action records, with the namespace and the two channels
handed to `StartLoop`. -/
def launchOf : Action → Option (String × Chan × Chan)
  | .go ns stop err => some (ns, stop, err)
  | _ => none

/-- The sends and closes of a trace, in order. -/
def effects (t : List Action) : List Action := t.filter isEffect

/-- The branches of the select that a trace records. -/
def branches (t : List Action) : List Action := t.filter isBranch

/-- The launches a trace records. -/
def launches (t : List Action) : List (String × Chan × Chan) := t.filterMap launchOf

/-- The namespaces the `range` loop has still to visit. -/
def remaining : Pc → List String
  | .range rest => rest
  | _ => []

/-- What the trace and the channel state look like at each program point. -/
def Inv (s : State) : Prop :=
  match s.pc with
  | .range _ => branches s.trace = [] ∧ effects s.trace = [] ∧ s.internalStopClosed = false
  | .select => branches s.trace = [] ∧ effects s.trace = [] ∧ s.internalStopClosed = false
  | .sendErr e =>
    branches s.trace = [.recvErr e] ∧ effects s.trace = [] ∧ s.internalStopClosed = false
  | .closeOnErr =>
    ∃ e, branches s.trace = [.recvErr e] ∧ effects s.trace = [.send .errCh e] ∧
      s.internalStopClosed = false
  | .closeOnStop =>
    branches s.trace = [.recvStop] ∧ effects s.trace = [] ∧ s.internalStopClosed = false
  | .done =>
    s.internalStopClosed = true ∧
    ((∃ e, branches s.trace = [.recvErr e] ∧
        effects s.trace = [.send .errCh e, .close .internalStopCh]) ∨
     (branches s.trace = [.recvStop] ∧ effects s.trace = [.close .internalStopCh]))
  | .panicked => False

/-- The fan-out invariant: launched goroutines followed by the namespaces still
to visit are the input list, and each launch handed over the two internal
channels. -/
def FanInv (namespaces : List String) (s : State) : Prop :=
  s.loops.map Prod.fst ++ remaining s.pc = namespaces ∧
  launches s.trace =
    (s.loops.map Prod.fst).map (fun n => (n, Chan.internalStopCh, Chan.internalErrCh))

/-- The reachable states on the empty namespace list: nothing is launched, and
the only way forward from the select is the caller's stop. -/
def EmptyInv (s : State) : Prop :=
  s.loops = [] ∧
  (((s.pc = .range [] ∨ s.pc = .select) ∧ s.trace = [] ∧ s.internalStopClosed = false) ∨
   (s.pc = .closeOnStop ∧ s.trace = [.recvStop] ∧ s.stopFired = true ∧
      s.internalStopClosed = false) ∨
   (s.pc = .done ∧ s.trace = [.recvStop, .close .internalStopCh] ∧ s.stopFired = true))

end K8s

namespace Claim

/-- The `context.Context` passed to `StartControlLoops`. -/
structure Context where
  id : Nat
deriving DecidableEq, Repr

/-- The value `evtNamespacer.Interactor(ns)` returns. -/
structure Interactor where
  id : Nat
deriving DecidableEq, Repr

/-- The arguments of `StartControlLoops` other than `namespaces` and `errCh`.
`cmNamespacer`, `lookup` and `lifecycler` are handles that are only passed on. -/
structure Args where
  ctx : Context
  evtNamespacer : String → Interactor
  cmNamespacer : Nat
  lookup : Nat
  lifecycler : Nat

/-- Modelled from the spec: the outcome of one call of `StartControlLoop`,
which is not among the sources.  The call either does not return during the
run (the loop keeps serving its namespace) or returns an `error`, `nil`
(`none`) or not. -/
inductive Outcome where
  | blocks
  | returns (err : Option GoError)
deriving DecidableEq, Repr

/-- The non-nil error a call returns, if it returns one. -/
def Outcome.failure : Outcome → Option GoError
  | .returns (some e) => some e
  | _ => none

/-- The threads of a run: the caller's thread, in which `StartControlLoops`
itself runs, and the goroutine launched for the `i`-th element. -/
inductive Tid where
  | main
  | go (i : Nat)
deriving DecidableEq, Repr

/-- Observable actions.  `closeErrCh` and `cancel` are part of the vocabulary
so that their absence can be stated; no statement of the function performs
them. -/
inductive Action where
  /-- Lines 23-30: `go func(ns string) { ... }(ns)`. -/
  | go (ns : String)
  /-- Line 24: `evtNamespacer.Interactor(ns)`. -/
  | interactor (ns : String)
  /-- Line 25: the call `StartControlLoop(ctx, evtIface, cmNamespacer, lookup, lifecycler)`. -/
  | startControlLoop (ctx : Context) (evtIface : Interactor)
      (cmNamespacer lookup lifecycler : Nat)
  /-- Line 25: the call returned `err`. -/
  | returned (err : Option GoError)
  /-- Line 26: `logger.Errorf` with the formatted message. -/
  | errorf (msg : String)
  /-- Line 27: a completed `errCh <- err`. -/
  | send (e : GoError)
  /-- A `close(errCh)`. -/
  | closeErrCh
  /-- A cancellation of a context. -/
  | cancel (ctx : Context)
  /-- The return of `StartControlLoops` (line 32) or of a goroutine's closure. -/
  | ret
deriving DecidableEq, Repr

/-- An action together with the thread that performed it. -/
structure Event where
  tid : Tid
  act : Action
deriving DecidableEq, Repr

/-- Program counter of the thread that runs `StartControlLoops`. -/
inductive Pc where
  /-- Lines 22-31: in the `range` loop, with the elements still to visit. -/
  | range (rest : List String)
  /-- Line 32: returned. -/
  | done
deriving DecidableEq, Repr

/-- Where a launched goroutine stands in the closure of lines 23-30. -/
inductive GState where
  /-- Launched; line 24 not yet run. -/
  | start
  /-- Inside the call of `StartControlLoop` (line 25). -/
  | inLoop
  /-- The call failed with `e`, the failure is logged, and the goroutine is in
  the send of line 27. -/
  | sending (e : GoError)
  /-- The closure has returned. -/
  | done
deriving DecidableEq, Repr

/-- The state of one run of `StartControlLoops`. -/
structure State where
  pc : Pc
  /-- The launched goroutines in launch order, each with the value bound to
  its `ns` parameter. -/
  gs : List (String × GState)
  trace : List Event
deriving DecidableEq, Repr

/-- Who moves next. -/
inductive Label where
  /-- The thread of `StartControlLoops` runs its next statement. -/
  | main
  /-- Goroutine `i` runs on to its next blocking point. -/
  | go (i : Nat)
  /-- The caller receives from `errCh` the value goroutine `i` is sending. -/
  | recv (i : Nat)
deriving DecidableEq, Repr

/-- Line 26: the message `logger.Errorf` formats. -/
def errorfMsg (ns : String) (err : GoError) : String :=
  "failed to start control loop for namespace " ++ ns ++ ", skipping (" ++ err.Error ++ ")"

/-- Lines 24 and 25 up to the call: the two calls a goroutine makes first. -/
def calls (a : Args) (ns : String) : List Action :=
  [.interactor ns,
   .startControlLoop a.ctx (a.evtNamespacer ns) a.cmNamespacer a.lookup a.lifecycler]

/-- Tag the actions of one thread. -/
def tag (t : Tid) (acts : List Action) : List Event := acts.map (Event.mk t)

/-- The state at entry of `StartControlLoops`. -/
def init (namespaces : List String) : State :=
  { pc := .range namespaces, gs := [], trace := [] }

/-- One step of `StartControlLoops` and its goroutines; `none` when the label
is not enabled.  `out i` is the outcome of the call of `StartControlLoop` made
by goroutine `i`. -/
def step (a : Args) (out : Nat → Outcome) (s : State) : Label → Option State
  | .main =>
    match s.pc with
    | .range (ns :: rest) =>
      some { s with pc := .range rest, gs := s.gs ++ [(ns, .start)],
                    trace := s.trace ++ tag .main [.go ns] }
    | .range [] => some { s with pc := .done, trace := s.trace ++ tag .main [.ret] }
    | .done => none
  | .go i =>
    match s.gs[i]? with
    | some (ns, .start) =>
      some { s with gs := s.gs.set i (ns, .inLoop),
                    trace := s.trace ++ tag (.go i) (calls a ns) }
    | some (ns, .inLoop) =>
      match out i with
      | .blocks => none
      | .returns none =>
        some { s with gs := s.gs.set i (ns, .done),
                      trace := s.trace ++ tag (.go i) [.returned none, .ret] }
      | .returns (some err) =>
        some { s with gs := s.gs.set i (ns, .sending err),
                      trace := s.trace ++
                        tag (.go i) [.returned (some err), .errorf (errorfMsg ns err)] }
    | _ => none
  | .recv i =>
    match s.gs[i]? with
    | some (ns, .sending err) =>
      some { s with gs := s.gs.set i (ns, .done),
                    trace := s.trace ++ tag (.go i) [.send err, .ret] }
    | _ => none

/-- Run a schedule from a state; a label that is not enabled is skipped. -/
def run (a : Args) (out : Nat → Outcome) (s : State) : List Label → State
  | [] => s
  | l :: ls => run a out ((step a out s l).getD s) ls

/-- The function `StartControlLoops` of `src/k8s/claim/loops.go`: the state
reached on `namespaces` under the schedule `sched`, when the calls of
`StartControlLoop` have the outcomes `out`. -/
def StartControlLoops (a : Args) (out : Nat → Outcome) (namespaces : List String)
    (sched : List Label) : State :=
  run a out (init namespaces) sched

/-- The actions of one thread recorded in a trace, in order. -/
def actsOf (t : Tid) (tr : List Event) : List Action :=
  (tr.filter fun ev => ev.tid = t).map Event.act

/-- The values sent on `errCh` that a list of actions records. -/
def sends (acts : List Action) : List GoError :=
  acts.filterMap fun x =>
    match x with
    | .send e => some e
    | _ => none

/-- The values sent on `errCh` in a trace, by whichever thread. -/
def sent (tr : List Event) : List GoError := sends (tr.map Event.act)

/-- What a goroutine bound to `ns` whose call has outcome `o` has done by the
time it is in a given state. -/
def history (a : Args) (o : Outcome) (ns : String) : GState → List Action
  | .start => []
  | .inLoop => calls a ns
  | .sending e => calls a ns ++ [.returned (some e), .errorf (errorfMsg ns e)]
  | .done =>
    match o with
    | .returns (some e) =>
      calls a ns ++ [.returned (some e), .errorf (errorfMsg ns e), .send e, .ret]
    | _ => calls a ns ++ [.returned none, .ret]

/-- Whether an action is one of the two calls of lines 24 and 25. -/
def isCall : Action → Bool
  | .interactor _ => true
  | .startControlLoop _ _ _ _ _ => true
  | _ => false

/-- The actions the code of `StartControlLoops` can perform when called with
the arguments `a`: everything but a close of `errCh` and a cancellation, and
`StartControlLoop` only with the context `a.ctx`. -/
def performable (a : Args) : Action → Bool
  | .closeErrCh => false
  | .cancel _ => false
  | .startControlLoop ctx _ _ _ _ => ctx = a.ctx
  | _ => true

/-- Two states that agree on everything but the goroutine of index `i`. -/
def AgreeOff (i : Nat) (s t : State) : Prop :=
  s.pc = t.pc ∧ s.gs.map Prod.fst = t.gs.map Prod.fst ∧ ∀ j, j ≠ i → s.gs[j]? = t.gs[j]?

/-- The non-nil errors returned by the first `n` calls of `StartControlLoop`,
in the order of the namespaces. -/
def failures (out : Nat → Outcome) (n : Nat) : List GoError :=
  (List.range n).filterMap fun i => (out i).failure

/-- What the goroutine of index `k` has sent once it is in state `st`: the
failure of its call if it has finished, nothing otherwise. -/
def contrib (out : Nat → Outcome) (k : Nat) (st : GState) : List GoError :=
  if st = .done then (out k).failure.toList else []

/-- The failures of the goroutines that have finished, the first goroutine of
the list being the one of index `k`. -/
def finishedFailures (out : Nat → Outcome) : Nat → List (String × GState) → List GoError
  | _, [] => []
  | k, g :: rest => contrib out k g.2 ++ finishedFailures out (k + 1) rest

/-- The goroutine of index `i` will take no further step: its closure has
returned, or it is in a call of `StartControlLoop` that does not return. -/
def final (out : Nat → Outcome) (s : State) (i : Nat) : Prop :=
  ∃ ns, s.gs[i]? = some (ns, .done) ∨ (s.gs[i]? = some (ns, .inLoop) ∧ out i = .blocks)

/-- The schedule that lets each of the first `n` goroutines run to its end,
the caller receiving what it sends. -/
def finishAll : Nat → List Label
  | 0 => []
  | n + 1 => finishAll n ++ [.go n, .go n, .recv n]

/-- The schedule that lets the supervisor run through its `n` namespaces and
return, and then each goroutine run to its end. -/
def drain (n : Nat) : List Label := List.replicate (n + 1) .main ++ finishAll n

/-- Which states a goroutine can be in, given the outcome of its call. -/
def consistent (o : Outcome) : GState → Prop
  | .start => True
  | .inLoop => True
  | .sending e => o = .returns (some e)
  | .done => o ≠ .blocks

/-- The per-thread invariant: every launched goroutine is in a state its
outcome allows and has performed exactly the history of that state; a
goroutine not launched has performed nothing; the supervisor's thread has
performed one launch per goroutine and, once returned, its return. -/
def ThreadInv (a : Args) (out : Nat → Outcome) (s : State) : Prop :=
  (∀ i, match s.gs[i]? with
    | some (ns, st) =>
      consistent (out i) st ∧ actsOf (.go i) s.trace = history a (out i) ns st
    | none => actsOf (.go i) s.trace = []) ∧
  actsOf .main s.trace =
    (s.gs.map fun g => Action.go g.1) ++ (if s.pc = .done then [.ret] else [])

/-- The namespaces the `range` loop has still to visit. -/
def remaining : Pc → List String
  | .range rest => rest
  | .done => []

/-- Where the supervisor's thread stands after `k` steps of its own on a list
of namespaces still to visit: one step per element, one more to return. -/
def pcAfter (rest : List String) (k : Nat) : Pc :=
  if rest.length < k then .done else .range (rest.drop k)

end Claim

section Lists

theorem map_fst_set_of_get {α β : Type} (l : List (α × β)) (i : Nat) (a : α) (b c : β)
    (h : l[i]? = some (a, b)) : (l.set i (a, c)).map Prod.fst = l.map Prod.fst := by
  induction l generalizing i with
  | nil => simp
  | cons x xs ih =>
    cases i with
    | zero =>
      simp at h
      simp [h]
    | succ n =>
      simp at h
      simpa using ih n h

end Lists

namespace K8s

@[simp] theorem effects_nil : effects [] = [] := rfl

@[simp] theorem branches_nil : branches [] = [] := rfl

@[simp] theorem launches_nil : launches [] = [] := rfl

@[simp] theorem effects_snoc (t : List Action) (a : Action) :
    effects (t ++ [a]) = effects t ++ (if isEffect a then [a] else []) := by
  simp only [effects, List.filter_append]
  cases h : isEffect a <;> simp [List.filter, h]

@[simp] theorem branches_snoc (t : List Action) (a : Action) :
    branches (t ++ [a]) = branches t ++ (if isBranch a then [a] else []) := by
  simp only [branches, List.filter_append]
  cases h : isBranch a <;> simp [List.filter, h]

@[simp] theorem launches_snoc (t : List Action) (a : Action) :
    launches (t ++ [a]) = launches t ++ (launchOf a).toList := by
  simp only [launches, List.filterMap_append]
  cases h : launchOf a <;> simp [List.filterMap, h]

theorem inv_init (namespaces : List String) : Inv (init namespaces) := by
  simp [Inv, init]

theorem inv_step (s : State) (l : Label) (h : Inv s) : Inv ((step s l).getD s) := by
  obtain ⟨pc, loops, sf, isc, tr⟩ := s
  cases l with
  | main =>
    cases pc with
    | range rest =>
      cases rest <;> simp_all [step, Inv, isEffect, isBranch]
    | closeOnErr =>
      obtain ⟨e, h1, h2, h3⟩ := h
      simp at h1 h2 h3
      simp [step, closeInternalStop, Inv, h3, isEffect, isBranch, h1, h2]
    | closeOnStop =>
      obtain ⟨h1, h2, h3⟩ := h
      simp at h1 h2 h3
      simp [step, closeInternalStop, Inv, h3, isEffect, isBranch, h1, h2]
    | _ => simpa [step] using h
  | selectErr i =>
    cases pc with
    | select =>
      simp only [step]
      split <;> simp_all [Inv, isEffect, isBranch]
    | _ => simpa [step] using h
  | selectStop =>
    cases pc with
    | select =>
      cases sf <;> simp_all [step, Inv, isEffect, isBranch]
    | _ => simpa [step] using h
  | callerRecv =>
    cases pc with
    | sendErr e => simp_all [step, Inv, isEffect, isBranch]
    | _ => simpa [step] using h
  | callerStop => simpa [step, Inv] using h
  | loopFail i e =>
    simp only [step]
    split
    · simpa [Inv] using h
    · simpa using h
  | loopStop i =>
    simp only [step]
    split
    · simpa [Inv] using h
    · simpa [Inv] using h
    · simpa using h

theorem inv_run (s : State) (sched : List Label) (h : Inv s) : Inv (run s sched) := by
  induction sched generalizing s with
  | nil => exact h
  | cons l ls ih => exact ih _ (inv_step s l h)

theorem inv_StartLoops (namespaces : List String) (sched : List Label) :
    Inv (StartLoops namespaces sched) :=
  inv_run _ _ (inv_init namespaces)

theorem run_append (s : State) (a b : List Label) : run s (a ++ b) = run (run s a) b := by
  induction a generalizing s with
  | nil => rfl
  | cons l ls ih => exact ih _

theorem StartLoops_append (namespaces : List String) (a b : List Label) :
    StartLoops namespaces (a ++ b) = run (StartLoops namespaces a) b :=
  run_append _ _ _

theorem fanInv_init (namespaces : List String) : FanInv namespaces (init namespaces) := by
  simp [FanInv, init, remaining]

theorem fanInv_step (namespaces : List String) (s : State) (l : Label)
    (h : FanInv namespaces s) : FanInv namespaces ((step s l).getD s) := by
  obtain ⟨pc, loops, sf, isc, tr⟩ := s
  obtain ⟨h1, h2⟩ := h
  simp only at h1 h2
  cases l with
  | main =>
    cases pc with
    | range rest =>
      cases rest with
      | nil => simpa [step, FanInv, remaining] using And.intro h1 h2
      | cons ns rest =>
        simp only [remaining] at h1
        simp [step, FanInv, remaining, h1, h2, launchOf]
    | closeOnErr =>
      simp only [remaining] at h1
      simp only [step, closeInternalStop, FanInv]
      split <;> simp [remaining, h1, h2, launchOf]
    | closeOnStop =>
      simp only [remaining] at h1
      simp only [step, closeInternalStop, FanInv]
      split <;> simp [remaining, h1, h2, launchOf]
    | _ => simpa [step, FanInv] using And.intro h1 h2
  | selectErr i =>
    cases pc with
    | select =>
      simp only [step]
      split
      · rename_i ns e _ hget
        simp only [remaining] at h1
        simp [FanInv, remaining, launchOf, map_fst_set_of_get loops i ns _ _ hget, h1, h2]
      · simpa [FanInv] using And.intro h1 h2
    | _ => simpa [step, FanInv] using And.intro h1 h2
  | selectStop =>
    cases pc with
    | select =>
      simp only [remaining] at h1
      cases sf <;> simp [step, FanInv, remaining, launchOf, h1, h2]
    | _ => simpa [step, FanInv] using And.intro h1 h2
  | callerRecv =>
    cases pc with
    | sendErr e =>
      simp only [remaining] at h1
      simp [step, FanInv, remaining, launchOf, h1, h2]
    | _ => simpa [step, FanInv] using And.intro h1 h2
  | callerStop => simpa [step, FanInv] using And.intro h1 h2
  | loopFail i e =>
    simp only [step]
    split
    · rename_i ns hget
      simp [FanInv, map_fst_set_of_get loops i ns _ _ hget, h1, h2]
    · simpa [FanInv] using And.intro h1 h2
  | loopStop i =>
    simp only [step]
    split
    · rename_i _ _ ns hget
      simp [FanInv, map_fst_set_of_get loops i ns _ _ hget, h1, h2]
    · rename_i _ _ ns _ hget
      simp [FanInv, map_fst_set_of_get loops i ns _ _ hget, h1, h2]
    · simpa [FanInv] using And.intro h1 h2

theorem fanInv_run (namespaces : List String) (s : State) (sched : List Label)
    (h : FanInv namespaces s) : FanInv namespaces (run s sched) := by
  induction sched generalizing s with
  | nil => exact h
  | cons l ls ih => exact ih _ (fanInv_step namespaces s l h)

theorem fanInv_StartLoops (namespaces : List String) (sched : List Label) :
    FanInv namespaces (StartLoops namespaces sched) :=
  fanInv_run _ _ _ (fanInv_init namespaces)

theorem remaining_step (s : State) (l : Label) :
    (remaining ((step s l).getD s).pc).length =
      (remaining s.pc).length - (if l = .main then 1 else 0) := by
  obtain ⟨pc, loops, sf, isc, tr⟩ := s
  cases l with
  | main =>
    cases pc with
    | range rest => cases rest <;> simp [step, remaining]
    | closeOnErr => simp only [step, closeInternalStop]; split <;> simp [remaining]
    | closeOnStop => simp only [step, closeInternalStop]; split <;> simp [remaining]
    | _ => simp [step, remaining]
  | selectErr i =>
    cases pc with
    | select => simp only [step]; split <;> simp [remaining]
    | _ => simp [step]
  | selectStop =>
    cases pc with
    | select => cases sf <;> simp [step, remaining]
    | _ => simp [step]
  | callerRecv =>
    cases pc with
    | sendErr e => simp [step, remaining]
    | _ => simp [step]
  | callerStop => simp [step]
  | loopFail i e => simp only [step]; split <;> simp
  | loopStop i => simp only [step]; split <;> simp

theorem remaining_run (s : State) (sched : List Label) :
    (remaining (run s sched).pc).length = (remaining s.pc).length - sched.count .main := by
  induction sched generalizing s with
  | nil => simp [run]
  | cons l ls ih =>
    simp only [run, ih, remaining_step, List.count_cons]
    by_cases h : l = .main
    · simp [h]
      omega
    · simp [h]

theorem loops_names (namespaces : List String) (sched : List Label) :
    (StartLoops namespaces sched).loops.map Prod.fst = namespaces.take (sched.count .main) := by
  obtain ⟨h1, -⟩ := fanInv_StartLoops namespaces sched
  have h2 := remaining_run (init namespaces) sched
  simp only [init, remaining] at h2
  change (remaining (StartLoops namespaces sched).pc).length = _ at h2
  generalize (StartLoops namespaces sched).loops.map Prod.fst = names at h1
  generalize remaining (StartLoops namespaces sched).pc = rest at h1 h2
  subst h1
  simp only [List.length_append] at h2
  by_cases hc : names.length + rest.length ≤ sched.count .main
  · have : rest = [] := List.eq_nil_of_length_eq_zero (by omega)
    subst this
    simp at hc
    simp [List.take_of_length_le hc]
  · have : names.length = sched.count .main := by omega
    rw [← this]
    simp

theorem trace_step (s : State) (l : Label) : s.trace <+: ((step s l).getD s).trace := by
  obtain ⟨pc, loops, sf, isc, tr⟩ := s
  cases l with
  | main =>
    cases pc with
    | range rest => cases rest <;> simp [step]
    | closeOnErr => simp only [step, closeInternalStop]; split <;> simp
    | closeOnStop => simp only [step, closeInternalStop]; split <;> simp
    | _ => simp [step]
  | selectErr i =>
    cases pc with
    | select => simp only [step]; split <;> simp
    | _ => simp [step]
  | selectStop =>
    cases pc with
    | select => cases sf <;> simp [step]
    | _ => simp [step]
  | callerRecv =>
    cases pc with
    | sendErr e => simp [step]
    | _ => simp [step]
  | callerStop => simp [step]
  | loopFail i e => simp only [step]; split <;> simp
  | loopStop i => simp only [step]; split <;> simp

theorem trace_run (s : State) (sched : List Label) : s.trace <+: (run s sched).trace := by
  induction sched generalizing s with
  | nil => exact List.prefix_refl _
  | cons l ls ih => exact (trace_step s l).trans (ih _)

theorem inv_err (s : State) (e : GoError) (hi : Inv s) (h : Action.recvErr e ∈ s.trace) :
    (s.pc = .sendErr e ∧ effects s.trace = [] ∧ s.internalStopClosed = false) ∨
    (s.pc = .closeOnErr ∧ effects s.trace = [.send .errCh e] ∧ s.internalStopClosed = false) ∨
    (s.pc = .done ∧ effects s.trace = [.send .errCh e, .close .internalStopCh]) := by
  have hb : Action.recvErr e ∈ branches s.trace := by
    simp [branches, List.mem_filter, h, isBranch]
  obtain ⟨pc, loops, sf, isc, tr⟩ := s
  cases pc <;> simp only [Inv] at hi
  case range => simp [hi.1] at hb
  case select => simp [hi.1] at hb
  case sendErr e1 =>
    simp [hi.1] at hb
    subst hb
    simp [hi.2.1, hi.2.2]
  case closeOnErr =>
    obtain ⟨e1, h1, h2, h3⟩ := hi
    simp [h1] at hb
    subst hb
    simp [h2, h3]
  case closeOnStop => simp [hi.1] at hb
  case done =>
    obtain ⟨-, ⟨e1, h1, h2⟩ | ⟨h1, -⟩⟩ := hi
    · simp [h1] at hb
      subst hb
      simp [h2]
    · simp [h1] at hb

theorem inv_stop (s : State) (hi : Inv s) (h : Action.recvStop ∈ s.trace) :
    (s.pc = .closeOnStop ∧ effects s.trace = [] ∧ s.internalStopClosed = false) ∨
    (s.pc = .done ∧ effects s.trace = [.close .internalStopCh]) := by
  have hb : Action.recvStop ∈ branches s.trace := by
    simp [branches, List.mem_filter, h, isBranch]
  obtain ⟨pc, loops, sf, isc, tr⟩ := s
  cases pc <;> simp only [Inv] at hi
  case range => simp [hi.1] at hb
  case select => simp [hi.1] at hb
  case sendErr e1 => simp [hi.1] at hb
  case closeOnErr =>
    obtain ⟨e1, h1, h2, h3⟩ := hi
    simp [h1] at hb
  case closeOnStop => simp [hi.2.1, hi.2.2]
  case done =>
    obtain ⟨-, ⟨e1, h1, h2⟩ | ⟨h1, h2⟩⟩ := hi
    · simp [h1] at hb
    · simp [h2]

theorem launches_stop (namespaces : List String) (sched : List Label) :
    ∀ x ∈ launches (StartLoops namespaces sched).trace,
      x.2.1 = Chan.internalStopCh ∧ x.2.2 = Chan.internalErrCh := by
  intro x hx
  rw [(fanInv_StartLoops namespaces sched).2] at hx
  simp only [List.mem_map] at hx
  obtain ⟨n, -, rfl⟩ := hx
  exact ⟨rfl, rfl⟩

theorem mem_effects (t : List Action) (a : Action) (h : a ∈ t) (he : isEffect a = true) :
    a ∈ effects t := by
  simp [effects, List.mem_filter, h, he]

theorem inv_effects (s : State) (hi : Inv s) (a : Action) (h : a ∈ s.trace)
    (he : isEffect a = true) :
    a = .close .internalStopCh ∨ ∃ e, a = .send .errCh e := by
  have hm := mem_effects _ _ h he
  obtain ⟨pc, loops, sf, isc, tr⟩ := s
  cases pc <;> simp only [Inv] at hi
  case range => simp [hi.2.1] at hm
  case select => simp [hi.2.1] at hm
  case sendErr e1 => simp [hi.2.1] at hm
  case closeOnErr =>
    obtain ⟨e1, -, h2, -⟩ := hi
    simp [h2] at hm
    exact Or.inr ⟨e1, hm⟩
  case closeOnStop => simp [hi.2.1] at hm
  case done =>
    obtain ⟨-, ⟨e1, -, h2⟩ | ⟨-, h2⟩⟩ := hi
    · simp [h2] at hm
      rcases hm with hm | hm
      · exact Or.inr ⟨e1, hm⟩
      · exact Or.inl hm
    · simp [h2] at hm
      exact Or.inl hm

theorem close_errCh_not_mem (namespaces : List String) (sched : List Label) :
    Action.close .errCh ∉ (StartLoops namespaces sched).trace := by
  intro h
  rcases inv_effects _ (inv_StartLoops namespaces sched) _ h rfl with h1 | ⟨e, h1⟩ <;>
    cases h1

theorem inv_counts (s : State) (hi : Inv s) :
    (branches s.trace).length ≤ 1 ∧
    s.trace.count (.close .internalStopCh) ≤ 1 ∧
    (s.pc = .done →
      (branches s.trace).length = 1 ∧ s.trace.count (.close .internalStopCh) = 1) ∧
    s.pc ≠ .panicked := by
  have hc : s.trace.count (.close .internalStopCh)
      = (effects s.trace).count (.close .internalStopCh) := by
    simp [effects, isEffect]
  rw [hc]
  obtain ⟨pc, loops, sf, isc, tr⟩ := s
  cases pc <;> simp only [Inv] at hi
  case range => simp [hi.1, hi.2.1]
  case select => simp [hi.1, hi.2.1]
  case sendErr e1 => simp [hi.1, hi.2.1]
  case closeOnErr =>
    obtain ⟨e1, h1, h2, -⟩ := hi
    simp [h1, h2]
  case closeOnStop => simp [hi.1, hi.2.1]
  case done =>
    obtain ⟨-, ⟨e1, h1, h2⟩ | ⟨h1, h2⟩⟩ := hi <;> simp [h1, h2]

theorem emptyInv_step (s : State) (l : Label) (h : EmptyInv s) :
    EmptyInv ((step s l).getD s) := by
  obtain ⟨pc, loops, sf, isc, tr⟩ := s
  obtain ⟨h0, h⟩ := h
  simp only at h0 h
  subst h0
  rcases h with ⟨h1 | h1, h2, h3⟩ | ⟨h1, h2, h3, h4⟩ | ⟨h1, h2, h3⟩ <;> subst h1 <;> subst h2
  · subst h3
    cases l <;> simp [step, EmptyInv]
  · subst h3
    cases l <;> simp [step, EmptyInv]
    cases sf <;> simp
  · subst h3 h4
    cases l <;> simp [step, EmptyInv, closeInternalStop]
  · subst h3
    cases l <;> simp [step, EmptyInv]

theorem emptyInv_run (s : State) (sched : List Label) (h : EmptyInv s) :
    EmptyInv (run s sched) := by
  induction sched generalizing s with
  | nil => exact h
  | cons l ls ih => exact ih _ (emptyInv_step s l h)

theorem emptyInv_StartLoops (sched : List Label) : EmptyInv (StartLoops [] sched) :=
  emptyInv_run _ _ (by simp [EmptyInv, init])

theorem stopFired_run (s : State) (sched : List Label) (h : (run s sched).stopFired = true) :
    s.stopFired = true ∨ Label.callerStop ∈ sched := by
  induction sched generalizing s with
  | nil => exact Or.inl h
  | cons l ls ih =>
    rcases ih _ h with h1 | h1
    · by_cases hl : l = .callerStop
      · exact Or.inr (by simp [hl])
      · left
        obtain ⟨pc, loops, sf, isc, tr⟩ := s
        cases l with
        | main =>
          cases pc with
          | range rest => cases rest <;> simpa [step] using h1
          | closeOnErr =>
            simp only [step, closeInternalStop] at h1
            split at h1 <;> simpa using h1
          | closeOnStop =>
            simp only [step, closeInternalStop] at h1
            split at h1 <;> simpa using h1
          | _ => simpa [step] using h1
        | selectErr i =>
          simp only [step] at h1
          split at h1 <;> simpa using h1
        | selectStop =>
          simp only [step] at h1
          split at h1
          · exact h1
          · simpa using h1
        | callerRecv =>
          simp only [step] at h1
          split at h1 <;> simpa using h1
        | callerStop => exact (hl rfl).elim
        | loopFail i e =>
          simp only [step] at h1
          split at h1 <;> simpa using h1
        | loopStop i =>
          simp only [step] at h1
          split at h1 <;> simpa using h1
    · exact Or.inr (List.mem_cons_of_mem _ h1)

/-- C1: on the failure path of `StartLoops` (the select received the loop
failure `e`), in every continuation of the run the sends and closes performed
are an initial part of `errCh <- e; close(internalStopCh)`: the value sent on
`errCh` is `e` itself, it is sent at most once, never followed by a second send,
and `internalStopCh` is closed only after it; once the function has returned
both have happened exactly once.  Every launched loop was handed that same
`internalStopCh`.  As soon as the caller receives from `errCh` the supervisor
completes the send, closes `internalStopCh` and returns. -/
theorem C1_failure_path_sends_once_then_closes (namespaces : List String)
    (sched : List Label) (e : GoError)
    (h : Action.recvErr e ∈ (StartLoops namespaces sched).trace) :
    (∀ more : List Label,
      effects (StartLoops namespaces (sched ++ more)).trace
          <+: [Action.send .errCh e, Action.close .internalStopCh] ∧
      ((StartLoops namespaces (sched ++ more)).pc = .done →
        effects (StartLoops namespaces (sched ++ more)).trace
          = [Action.send .errCh e, Action.close .internalStopCh]) ∧
      (∀ x ∈ launches (StartLoops namespaces (sched ++ more)).trace,
        x.2.1 = Chan.internalStopCh)) ∧
    (StartLoops namespaces (sched ++ [.callerRecv, .main])).pc = .done := by
  refine ⟨fun more => ?_, ?_⟩
  · have hm : Action.recvErr e ∈ (StartLoops namespaces (sched ++ more)).trace := by
      rw [StartLoops_append]
      exact (trace_run _ more).subset h
    refine ⟨?_, ?_, fun x hx => (launches_stop _ _ x hx).1⟩
    · rcases inv_err _ e (inv_StartLoops _ _) hm with ⟨-, h2, -⟩ | ⟨-, h2, -⟩ | ⟨-, h2⟩ <;>
        simp [h2]
    · intro hd
      rcases inv_err _ e (inv_StartLoops _ _) hm with ⟨h1, -, -⟩ | ⟨h1, -, -⟩ | ⟨-, h2⟩
      · rw [h1] at hd
        cases hd
      · rw [h1] at hd
        cases hd
      · exact h2
  · rw [StartLoops_append]
    have hi := inv_err _ e (inv_StartLoops namespaces sched) h
    generalize StartLoops namespaces sched = s at hi
    obtain ⟨pc, loops, sf, isc, tr⟩ := s
    rcases hi with ⟨h1, -, h3⟩ | ⟨h1, -, h3⟩ | ⟨h1, -⟩
    · simp only at h1 h3
      subst h1
      simp [run, step, closeInternalStop, h3]
    · simp only at h1 h3
      subst h1
      simp [run, step, closeInternalStop, h3]
    · simp only at h1
      subst h1
      simp [run, step]

/-- Witness for C1 on the namespaces A, B, C where the loop of B fails. -/
theorem C1_failure_path_witness :
    Action.recvErr ⟨"boom"⟩ ∈
      (StartLoops ["A", "B", "C"]
        [.main, .main, .main, .main, .loopFail 1 ⟨"boom"⟩, .loopFail 2 ⟨"bang"⟩,
          .selectErr 1]).trace ∧
    ((∀ more : List Label,
      effects (StartLoops ["A", "B", "C"]
        ([.main, .main, .main, .main, .loopFail 1 ⟨"boom"⟩, .loopFail 2 ⟨"bang"⟩,
          .selectErr 1] ++ more)).trace
          <+: [Action.send .errCh ⟨"boom"⟩, Action.close .internalStopCh] ∧
      ((StartLoops ["A", "B", "C"]
        ([.main, .main, .main, .main, .loopFail 1 ⟨"boom"⟩, .loopFail 2 ⟨"bang"⟩,
          .selectErr 1] ++ more)).pc = .done →
        effects (StartLoops ["A", "B", "C"]
        ([.main, .main, .main, .main, .loopFail 1 ⟨"boom"⟩, .loopFail 2 ⟨"bang"⟩,
          .selectErr 1] ++ more)).trace
          = [Action.send .errCh ⟨"boom"⟩, Action.close .internalStopCh]) ∧
      (∀ x ∈ launches (StartLoops ["A", "B", "C"]
        ([.main, .main, .main, .main, .loopFail 1 ⟨"boom"⟩, .loopFail 2 ⟨"bang"⟩,
          .selectErr 1] ++ more)).trace,
        x.2.1 = Chan.internalStopCh)) ∧
    (StartLoops ["A", "B", "C"]
        ([.main, .main, .main, .main, .loopFail 1 ⟨"boom"⟩, .loopFail 2 ⟨"bang"⟩,
          .selectErr 1] ++ [.callerRecv, .main])).pc = .done) :=
  ⟨by decide, C1_failure_path_sends_once_then_closes _ _ _ (by decide)⟩

/-- C2: evaluation of `StartLoops` on the failure path.  On the namespace
`default`, whose loop fails with `watch failed`, the supervisor returns after
`errCh <- err` and `close(internalStopCh)`; the trace holds no close of `errCh`,
which the doc comment of the function promises.  More generally no run of
`StartLoops` ever closes `errCh`. -/
theorem C2_failure_path_leaves_errCh_open :
    (StartLoops ["default"]
        [.main, .main, .loopFail 0 ⟨"watch failed"⟩, .selectErr 0, .callerRecv, .main]).pc
      = .done ∧
    (StartLoops ["default"]
        [.main, .main, .loopFail 0 ⟨"watch failed"⟩, .selectErr 0, .callerRecv, .main]).trace
      = [.go "default" .internalStopCh .internalErrCh, .recvErr ⟨"watch failed"⟩,
         .send .errCh ⟨"watch failed"⟩, .close .internalStopCh] ∧
    (∀ (namespaces : List String) (sched : List Label),
      Action.close .errCh ∉ (StartLoops namespaces sched).trace) :=
  ⟨by decide, by decide, close_errCh_not_mem⟩

/-- C3: on the external-stop path of `StartLoops` (the select received from
`stopCh`), in every continuation of the run the only send or close performed is
`close(internalStopCh)`, at most once, and exactly once when the function has
returned: no value is sent on `errCh` and `errCh` is not closed.  The
supervisor's next step closes `internalStopCh` and returns. -/
theorem C3_stop_path_closes_only_internalStopCh (namespaces : List String)
    (sched : List Label)
    (h : Action.recvStop ∈ (StartLoops namespaces sched).trace) :
    (∀ more : List Label,
      effects (StartLoops namespaces (sched ++ more)).trace
          <+: [Action.close .internalStopCh] ∧
      ((StartLoops namespaces (sched ++ more)).pc = .done →
        effects (StartLoops namespaces (sched ++ more)).trace
          = [Action.close .internalStopCh]) ∧
      (∀ (c : Chan) (e : GoError),
        Action.send c e ∉ (StartLoops namespaces (sched ++ more)).trace) ∧
      Action.close .errCh ∉ (StartLoops namespaces (sched ++ more)).trace) ∧
    (StartLoops namespaces (sched ++ [.main])).pc = .done := by
  refine ⟨fun more => ?_, ?_⟩
  · have hm : Action.recvStop ∈ (StartLoops namespaces (sched ++ more)).trace := by
      rw [StartLoops_append]
      exact (trace_run _ more).subset h
    refine ⟨?_, ?_, ?_, close_errCh_not_mem _ _⟩
    · rcases inv_stop _ (inv_StartLoops _ _) hm with ⟨-, h2, -⟩ | ⟨-, h2⟩ <;> simp [h2]
    · intro hd
      rcases inv_stop _ (inv_StartLoops _ _) hm with ⟨h1, -, -⟩ | ⟨-, h2⟩
      · rw [h1] at hd
        cases hd
      · exact h2
    · intro c e hs
      have hs2 := mem_effects _ _ hs rfl
      rcases inv_stop _ (inv_StartLoops _ _) hm with ⟨-, h2, -⟩ | ⟨-, h2⟩ <;>
        simp [h2] at hs2
  · rw [StartLoops_append]
    have hi := inv_stop _ (inv_StartLoops namespaces sched) h
    generalize StartLoops namespaces sched = s at hi
    obtain ⟨pc, loops, sf, isc, tr⟩ := s
    rcases hi with ⟨h1, -, h3⟩ | ⟨h1, -⟩
    · simp only at h1 h3
      subst h1
      simp [run, step, closeInternalStop, h3]
    · simp only at h1
      subst h1
      simp [run, step]

/-- Witness for C3: the caller stops three running loops, one of which has a
failure pending when the stop is taken. -/
theorem C3_stop_path_witness :
    Action.recvStop ∈
      (StartLoops ["A", "B", "C"]
        [.main, .main, .main, .main, .loopFail 1 ⟨"boom"⟩, .callerStop, .selectStop]).trace ∧
    ((∀ more : List Label,
      effects (StartLoops ["A", "B", "C"]
        ([.main, .main, .main, .main, .loopFail 1 ⟨"boom"⟩, .callerStop, .selectStop]
          ++ more)).trace
          <+: [Action.close .internalStopCh] ∧
      ((StartLoops ["A", "B", "C"]
        ([.main, .main, .main, .main, .loopFail 1 ⟨"boom"⟩, .callerStop, .selectStop]
          ++ more)).pc = .done →
        effects (StartLoops ["A", "B", "C"]
        ([.main, .main, .main, .main, .loopFail 1 ⟨"boom"⟩, .callerStop, .selectStop]
          ++ more)).trace
          = [Action.close .internalStopCh]) ∧
      (∀ (c : Chan) (e : GoError),
        Action.send c e ∉ (StartLoops ["A", "B", "C"]
        ([.main, .main, .main, .main, .loopFail 1 ⟨"boom"⟩, .callerStop, .selectStop]
          ++ more)).trace) ∧
      Action.close .errCh ∉ (StartLoops ["A", "B", "C"]
        ([.main, .main, .main, .main, .loopFail 1 ⟨"boom"⟩, .callerStop, .selectStop]
          ++ more)).trace) ∧
    (StartLoops ["A", "B", "C"]
        ([.main, .main, .main, .main, .loopFail 1 ⟨"boom"⟩, .callerStop, .selectStop]
          ++ [.main])).pc = .done) :=
  ⟨by decide, C3_stop_path_closes_only_internalStopCh _ _ (by decide)⟩

/-- C7, as the claim states it, fails: on the empty namespace list, with the
supervisor thread scheduled again and again and every other label tried, but
`stopCh` never fired, `StartLoops` has not returned; it sits in its select. -/
theorem C7_empty_list_blocks_in_select :
    (StartLoops []
      [.main, .main, .selectStop, .selectErr 0, .callerRecv, .loopFail 0 ⟨"boom"⟩,
        .loopStop 0, .main, .main]).pc = Pc.select ∧
    (StartLoops []
      [.main, .main, .selectStop, .selectErr 0, .callerRecv, .loopFail 0 ⟨"boom"⟩,
        .loopStop 0, .main, .main]).stopFired = false :=
  ⟨by decide, by decide⟩

/-- C7, amended: on the empty namespace list `StartLoops` launches no loop and
performs no send and no close on `errCh`; it does not return before the
caller's `stopCh` has fired, and once it has fired the supervisor takes the
stop branch, closes `internalStopCh` and returns. -/
theorem C7_empty_list_waits_for_stop (sched : List Label) :
    (StartLoops [] sched).loops = [] ∧
    launches (StartLoops [] sched).trace = [] ∧
    (∀ (c : Chan) (e : GoError), Action.send c e ∉ (StartLoops [] sched).trace) ∧
    Action.close .errCh ∉ (StartLoops [] sched).trace ∧
    ((StartLoops [] sched).pc = .done → Label.callerStop ∈ sched) ∧
    (StartLoops [] (sched ++ [.main, .callerStop, .selectStop, .main])).pc = .done ∧
    (StartLoops [] (sched ++ [.main, .callerStop, .selectStop, .main])).trace
      = [.recvStop, .close .internalStopCh] := by
  have hi := emptyInv_StartLoops sched
  have hstop := stopFired_run (init []) sched
  rw [StartLoops_append]
  change (StartLoops [] sched).stopFired = true → _ at hstop
  generalize StartLoops [] sched = s at hi hstop
  obtain ⟨pc, loops, sf, isc, tr⟩ := s
  obtain ⟨h0, h⟩ := hi
  simp only at h0 h hstop
  subst h0
  rcases h with ⟨h1 | h1, h2, h3⟩ | ⟨h1, h2, h3, h4⟩ | ⟨h1, h2, h3⟩ <;> subst h1 <;> subst h2
  · subst h3
    simp [run, step, closeInternalStop]
  · subst h3
    simp [run, step, closeInternalStop]
  · subst h3 h4
    simp [run, step, closeInternalStop, launches, launchOf]
  · subst h3
    have := hstop rfl
    simp [init] at this
    simp [run, step, this, launches, launchOf]

/-- Witness for the amended C7: a run on the empty list that returns, and in
which the caller did fire `stopCh`. -/
theorem C7_empty_list_witness :
    (StartLoops [] [.main, .callerStop, .selectStop, .main]).pc = .done ∧
    Label.callerStop ∈ [Label.main, .callerStop, .selectStop, .main] :=
  ⟨by decide,
    (C7_empty_list_waits_for_stop [.main, .callerStop, .selectStop, .main]).2.2.2.2.1
      (by decide)⟩

/-- C10: in every run of `StartLoops` at most one branch of the select is
taken and `internalStopCh` is closed at most once; in every run that has
returned exactly one branch was taken and `internalStopCh` was closed exactly
once; the double-close panic is never reached.  When a loop failure and the
caller's stop are both pending at the select, either branch may be taken. -/
theorem C10_internalStopCh_closed_at_most_once (namespaces : List String)
    (sched : List Label) :
    (branches (StartLoops namespaces sched).trace).length ≤ 1 ∧
    (StartLoops namespaces sched).trace.count (.close .internalStopCh) ≤ 1 ∧
    ((StartLoops namespaces sched).pc = .done →
      (branches (StartLoops namespaces sched).trace).length = 1 ∧
      (StartLoops namespaces sched).trace.count (.close .internalStopCh) = 1) ∧
    (StartLoops namespaces sched).pc ≠ .panicked ∧
    (∀ (i : Nat) (ns : String) (e : GoError),
      (StartLoops namespaces sched).pc = .select →
      (StartLoops namespaces sched).stopFired = true →
      (StartLoops namespaces sched).loops[i]? = some (ns, .failing e) →
      (step (StartLoops namespaces sched) (.selectErr i)).isSome = true ∧
      (step (StartLoops namespaces sched) .selectStop).isSome = true) := by
  obtain ⟨h1, h2, h3, h4⟩ := inv_counts _ (inv_StartLoops namespaces sched)
  refine ⟨h1, h2, h3, h4, ?_⟩
  intro i ns e hpc hs hl
  simp [step, hpc, hs, hl]

end K8s

namespace Claim

theorem actsOf_nil (t : Tid) : actsOf t [] = [] := rfl

theorem actsOf_append_tag (t u : Tid) (tr : List Event) (acts : List Action) :
    actsOf t (tr ++ tag u acts) = actsOf t tr ++ (if u = t then acts else []) := by
  simp only [actsOf, tag, List.filter_append, List.map_append, List.filter_map]
  by_cases h : u = t
  · subst h
    simp [Function.comp_def]
  · simp [h, Function.comp_def]

theorem run_concat (a : Args) (out : Nat → Outcome) (s : State) (x y : List Label) :
    run a out s (x ++ y) = run a out (run a out s x) y := by
  induction x generalizing s with
  | nil => rfl
  | cons l ls ih => exact ih _

theorem StartControlLoops_append (a : Args) (out : Nat → Outcome) (namespaces : List String)
    (x y : List Label) :
    StartControlLoops a out namespaces (x ++ y)
      = run a out (StartControlLoops a out namespaces x) y :=
  run_concat _ _ _ _ _

theorem threadInv_set (a : Args) (out : Nat → Outcome) (pc : Pc)
    (gs : List (String × GState)) (tr : List Event) (j : Nat) (ns : String)
    (st st2 : GState) (acts : List Action)
    (h : ThreadInv a out ⟨pc, gs, tr⟩) (hj : gs[j]? = some (ns, st))
    (hc : consistent (out j) st2)
    (hh : history a (out j) ns st2 = history a (out j) ns st ++ acts) :
    ThreadInv a out ⟨pc, gs.set j (ns, st2), tr ++ tag (.go j) acts⟩ := by
  obtain ⟨h1, h2⟩ := h
  simp only at h1 h2
  have hlt : j < gs.length := by
    by_contra hge
    simp [List.getElem?_eq_none (Nat.le_of_not_lt hge)] at hj
  refine ⟨fun i => ?_, ?_⟩
  · simp only [List.getElem?_set, actsOf_append_tag]
    by_cases hij : j = i
    · subst hij
      have := h1 j
      simp only [hj] at this
      simp [hlt, hc, hh, this.2]
    · have := h1 i
      simp only [hij, if_false, Tid.go.injEq, List.append_nil]
      exact this
  · simp only [actsOf_append_tag]
    have hm : (gs.set j (ns, st2)).map (fun g => Action.go g.1)
        = gs.map (fun g => Action.go g.1) := by
      have := map_fst_set_of_get gs j ns st st2 hj
      have h3 : ∀ l : List (String × GState),
          l.map (fun g => Action.go g.1) = (l.map Prod.fst).map Action.go := by
        intro l
        simp
      rw [h3, h3, this]
    simp [hm, h2]

theorem threadInv_init (a : Args) (out : Nat → Outcome) (namespaces : List String) :
    ThreadInv a out (init namespaces) := by
  simp [ThreadInv, init, actsOf]

theorem threadInv_step (a : Args) (out : Nat → Outcome) (s : State) (l : Label)
    (h : ThreadInv a out s) : ThreadInv a out ((step a out s l).getD s) := by
  obtain ⟨pc, gs, tr⟩ := s
  cases l with
  | main =>
    cases pc with
    | done => simpa [step] using h
    | range rest =>
      obtain ⟨h1, h2⟩ := h
      simp only at h1 h2
      cases rest with
      | nil =>
        simp only [step, Option.getD_some]
        refine ⟨fun i => ?_, ?_⟩
        · simpa [actsOf_append_tag] using h1 i
        · simp [actsOf_append_tag, h2]
      | cons ns rest =>
        simp only [step, Option.getD_some]
        refine ⟨fun i => ?_, ?_⟩
        · simp only [actsOf_append_tag, List.getElem?_append]
          have := h1 i
          by_cases hi : i < gs.length
          · simpa [hi] using this
          · have hn : gs[i]? = none := List.getElem?_eq_none (Nat.le_of_not_lt hi)
            simp only [hn] at this
            by_cases he : i = gs.length
            · subst he
              simp [consistent, history, this]
            · have : i - gs.length ≠ 0 := by omega
              obtain ⟨k, hk⟩ := Nat.exists_eq_succ_of_ne_zero this
              simp [hi, hk, *]
        · simp [actsOf_append_tag, h2]
  | go j =>
    simp only [step]
    split
    · rename_i ns hj
      exact threadInv_set a out pc gs tr j ns .start .inLoop _ h hj trivial (by simp [history])
    · rename_i ns hj
      split
      · simpa using h
      · rename_i ho
        exact threadInv_set a out pc gs tr j ns .inLoop .done _ h hj
          (by simp [consistent, ho]) (by simp [history, ho])
      · rename_i e ho
        exact threadInv_set a out pc gs tr j ns .inLoop (.sending e) _ h hj
          (by simp [consistent, ho]) (by simp [history])
    · simpa using h
  | recv j =>
    simp only [step]
    split
    · rename_i ns e hj
      have hc := (h.1 j)
      simp only [hj, consistent] at hc
      exact threadInv_set a out pc gs tr j ns (.sending e) .done _ h hj
        (by simp [consistent, hc.1]) (by simp [history, hc.1])
    · simpa using h

theorem threadInv_run (a : Args) (out : Nat → Outcome) (s : State) (sched : List Label)
    (h : ThreadInv a out s) : ThreadInv a out (run a out s sched) := by
  induction sched generalizing s with
  | nil => exact h
  | cons l ls ih => exact ih _ (threadInv_step a out s l h)

theorem threadInv_StartControlLoops (a : Args) (out : Nat → Outcome)
    (namespaces : List String) (sched : List Label) :
    ThreadInv a out (StartControlLoops a out namespaces sched) :=
  threadInv_run _ _ _ _ (threadInv_init a out namespaces)

theorem pc_run (a : Args) (out : Nat → Outcome) (s : State) (sched : List Label) :
    (run a out s sched).pc =
      match s.pc with
      | .done => .done
      | .range rest => pcAfter rest (sched.count .main) := by
  induction sched generalizing s with
  | nil =>
    cases h : s.pc <;> simp [run, h, pcAfter]
  | cons l ls ih =>
    obtain ⟨pc, gs, tr⟩ := s
    simp only [run, ih]
    cases l with
    | main =>
      cases pc with
      | done => simp [step]
      | range rest =>
        cases rest with
        | nil => simp [step, pcAfter]
        | cons ns rest => simp [step, pcAfter]
    | go j =>
      have : ((step a out ⟨pc, gs, tr⟩ (.go j)).getD ⟨pc, gs, tr⟩).pc = pc := by
        simp only [step]
        split
        · rfl
        · split <;> rfl
        · rfl
      rw [this]
      simp
    | recv j =>
      have : ((step a out ⟨pc, gs, tr⟩ (.recv j)).getD ⟨pc, gs, tr⟩).pc = pc := by
        simp only [step]
        split <;> rfl
      rw [this]
      simp

theorem pc_StartControlLoops (a : Args) (out : Nat → Outcome) (namespaces : List String)
    (sched : List Label) :
    (StartControlLoops a out namespaces sched).pc = pcAfter namespaces (sched.count .main) :=
  pc_run a out (init namespaces) sched

theorem names_step (a : Args) (out : Nat → Outcome) (s : State) (l : Label) :
    ((step a out s l).getD s).gs.map Prod.fst ++ remaining ((step a out s l).getD s).pc
      = s.gs.map Prod.fst ++ remaining s.pc := by
  obtain ⟨pc, gs, tr⟩ := s
  cases l with
  | main =>
    cases pc with
    | done => simp [step]
    | range rest => cases rest <;> simp [step, remaining]
  | go j =>
    simp only [step]
    split
    · rename_i ns hj
      simp [map_fst_set_of_get gs j ns _ _ hj]
    · rename_i ns hj
      split <;> simp [map_fst_set_of_get gs j ns _ _ hj]
    · simp
  | recv j =>
    simp only [step]
    split
    · rename_i ns e hj
      simp [map_fst_set_of_get gs j ns _ _ hj]
    · simp

theorem names_run (a : Args) (out : Nat → Outcome) (s : State) (sched : List Label) :
    (run a out s sched).gs.map Prod.fst ++ remaining (run a out s sched).pc
      = s.gs.map Prod.fst ++ remaining s.pc := by
  induction sched generalizing s with
  | nil => rfl
  | cons l ls ih => exact (ih _).trans (names_step a out s l)

theorem gs_names (a : Args) (out : Nat → Outcome) (namespaces : List String)
    (sched : List Label) :
    (StartControlLoops a out namespaces sched).gs.map Prod.fst
      = namespaces.take (sched.count .main) := by
  have h1 := names_run a out (init namespaces) sched
  have h2 := pc_StartControlLoops a out namespaces sched
  change (StartControlLoops a out namespaces sched).gs.map Prod.fst
    ++ remaining (StartControlLoops a out namespaces sched).pc = _ at h1
  rw [h2] at h1
  generalize (StartControlLoops a out namespaces sched).gs.map Prod.fst = names at h1
  by_cases hlt : namespaces.length < sched.count .main
  · simp [pcAfter, hlt, remaining, init] at h1
    rw [h1, List.take_of_length_le (Nat.le_of_lt hlt)]
  · simp only [pcAfter, hlt, if_false, remaining, init, List.map_nil, List.nil_append] at h1
    have h3 := List.take_append_drop (sched.count .main) namespaces
    exact List.append_cancel_right (h1.trans h3.symm)

theorem gs_bound (a : Args) (out : Nat → Outcome) (namespaces : List String)
    (sched : List Label) (i : Nat) (ns : String) (st : GState)
    (h : (StartControlLoops a out namespaces sched).gs[i]? = some (ns, st)) :
    namespaces[i]? = some ns := by
  have h1 := gs_names a out namespaces sched
  have h2 : ((StartControlLoops a out namespaces sched).gs.map Prod.fst)[i]? = some ns := by
    simp [List.getElem?_map, h]
  rw [h1, List.getElem?_take] at h2
  split at h2
  · exact h2
  · cases h2

theorem mem_actsOf (tr : List Event) (ev : Event) (h : ev ∈ tr) : ev.act ∈ actsOf ev.tid tr := by
  simp only [actsOf, List.mem_map, List.mem_filter]
  exact ⟨ev, ⟨h, by simp⟩, rfl⟩

theorem history_calls (a : Args) (o : Outcome) (ns : String) (st : GState) :
    (history a o ns st).filter isCall = if st = .start then [] else calls a ns := by
  cases st with
  | start => simp [history]
  | inLoop => simp [history, calls, isCall]
  | sending e => simp [history, calls, isCall]
  | done =>
    simp only [history]
    split <;> simp [calls, isCall]

theorem main_acts (a : Args) (out : Nat → Outcome) (namespaces : List String)
    (sched : List Label) :
    actsOf .main (StartControlLoops a out namespaces sched).trace
      = (namespaces.take (sched.count .main)).map Action.go
        ++ (if namespaces.length < sched.count .main then [.ret] else []) := by
  have h := (threadInv_StartControlLoops a out namespaces sched).2
  have h3 : ∀ l : List (String × GState),
      l.map (fun g => Action.go g.1) = (l.map Prod.fst).map Action.go := by
    intro l
    simp
  rw [h, h3, gs_names, pc_StartControlLoops]
  by_cases hlt : namespaces.length < sched.count .main <;> simp [pcAfter, hlt]

theorem run_mains (a : Args) (out : Nat → Outcome) (rest : List String)
    (gs : List (String × GState)) (tr : List Event) :
    run a out ⟨.range rest, gs, tr⟩ (List.replicate (rest.length + 1) .main)
      = ⟨.done, gs ++ rest.map (fun ns => (ns, GState.start)),
          tr ++ tag .main (rest.map Action.go ++ [.ret])⟩ := by
  induction rest generalizing gs tr with
  | nil => simp [run, step, List.replicate, tag]
  | cons ns rest ih =>
    have h : run a out ⟨.range (ns :: rest), gs, tr⟩
          (List.replicate ((ns :: rest).length + 1) .main)
        = run a out ⟨.range rest, gs ++ [(ns, .start)], tr ++ tag .main [.go ns]⟩
          (List.replicate (rest.length + 1) .main) := rfl
    rw [h, ih]
    simp [tag]

/-- C6: both supervisors launch one loop per element of the namespace list,
in order and without deduplication.  After `k` steps of the supervisor's
thread the launched loops are bound to the first `k` elements of the list, all
of them once `k` reaches its length, never more.  `StartLoops` hands each the
internal channels.  In `StartControlLoops` the goroutine bound to the `i`-th
element `ns` has, once it has run, made exactly the call `Interactor(ns)` and
then the call of `StartControlLoop` with its result; a launched goroutine that
has not run yet can always do so. -/
theorem C6_one_loop_per_element (a : Args) (out : Nat → Outcome) (namespaces : List String)
    (schedK : List K8s.Label) (sched : List Label) :
    ((K8s.StartLoops namespaces schedK).loops.map Prod.fst
        = namespaces.take (schedK.count .main) ∧
     K8s.launches (K8s.StartLoops namespaces schedK).trace
        = (namespaces.take (schedK.count .main)).map
            (fun n => (n, K8s.Chan.internalStopCh, K8s.Chan.internalErrCh)) ∧
     (namespaces.length ≤ schedK.count .main →
        (K8s.StartLoops namespaces schedK).loops.map Prod.fst = namespaces)) ∧
    ((StartControlLoops a out namespaces sched).gs.map Prod.fst
        = namespaces.take (sched.count .main) ∧
     actsOf .main (StartControlLoops a out namespaces sched).trace
        = (namespaces.take (sched.count .main)).map Action.go
          ++ (if namespaces.length < sched.count .main then [.ret] else []) ∧
     (namespaces.length ≤ sched.count .main →
        (StartControlLoops a out namespaces sched).gs.map Prod.fst = namespaces) ∧
     (∀ (i : Nat) (ns : String) (st : GState),
        (StartControlLoops a out namespaces sched).gs[i]? = some (ns, st) →
        namespaces[i]? = some ns ∧
        (actsOf (.go i) (StartControlLoops a out namespaces sched).trace).filter isCall
          = (if st = .start then [] else
              [.interactor ns,
               .startControlLoop a.ctx (a.evtNamespacer ns) a.cmNamespacer a.lookup
                 a.lifecycler]) ∧
        (st = .start →
          (step a out (StartControlLoops a out namespaces sched) (.go i)).isSome = true)) ∧
     (∀ i : Nat, (StartControlLoops a out namespaces sched).gs[i]? = none →
        actsOf (.go i) (StartControlLoops a out namespaces sched).trace = [])) := by
  refine ⟨⟨K8s.loops_names _ _, ?_, ?_⟩, gs_names _ _ _ _, main_acts _ _ _ _, ?_, ?_, ?_⟩
  · rw [(K8s.fanInv_StartLoops namespaces schedK).2, K8s.loops_names]
  · intro h
    rw [K8s.loops_names, List.take_of_length_le h]
  · intro h
    rw [gs_names, List.take_of_length_le h]
  · intro i ns st h
    have hi := (threadInv_StartControlLoops a out namespaces sched).1 i
    simp only [h] at hi
    refine ⟨gs_bound a out namespaces sched i ns st h, ?_, ?_⟩
    · rw [hi.2, history_calls]
      rfl
    · intro hs
      subst hs
      simp [step, h]
  · intro i h
    have hi := (threadInv_StartControlLoops a out namespaces sched).1 i
    simpa only [h] using hi

/-- Witness for C6 on a list with a duplicate: after the supervisor has run,
three goroutines are launched, and the third, bound to the second `team-a`,
has made its own `Interactor` call. -/
theorem C6_one_loop_per_element_witness :
    (StartControlLoops ⟨⟨7⟩, fun ns => ⟨ns.length⟩, 1, 2, 3⟩ (fun _ => .blocks)
        ["team-a", "team-b", "team-a"] [.main, .main, .main, .main, .go 2]).gs[2]?
      = some ("team-a", .inLoop) ∧
    (actsOf (.go 2) (StartControlLoops ⟨⟨7⟩, fun ns => ⟨ns.length⟩, 1, 2, 3⟩
        (fun _ => .blocks) ["team-a", "team-b", "team-a"]
        [.main, .main, .main, .main, .go 2]).trace).filter isCall
      = [.interactor "team-a", .startControlLoop ⟨7⟩ ⟨6⟩ 1 2 3] :=
  ⟨by decide,
    ((C6_one_loop_per_element ⟨⟨7⟩, fun ns => ⟨ns.length⟩, 1, 2, 3⟩ (fun _ => .blocks)
      ["team-a", "team-b", "team-a"] [] [.main, .main, .main, .main, .go 2]).2.2.2.2.1
      2 "team-a" .inLoop (by decide)).2.1⟩

/-- C9: the thread that calls `StartControlLoops` only launches goroutines and
returns.  Where it stands is a function of the number of its own steps alone,
whatever the outcomes of the loops and however the goroutines and the reader of
`errCh` are scheduled; its actions are the launches, in order, and the return;
every send on `errCh` is performed by a launched goroutine.  Scheduled alone it
returns after one step per namespace and one more, with every goroutine still
before its first statement and nothing sent. -/
theorem C9_caller_thread_only_launches (a : Args) (out : Nat → Outcome)
    (namespaces : List String) (sched : List Label) :
    (StartControlLoops a out namespaces sched).pc
      = pcAfter namespaces (sched.count .main) ∧
    actsOf .main (StartControlLoops a out namespaces sched).trace
      = (namespaces.take (sched.count .main)).map Action.go
        ++ (if namespaces.length < sched.count .main then [.ret] else []) ∧
    (∀ ev ∈ (StartControlLoops a out namespaces sched).trace, ∀ e : GoError,
      ev.act = .send e → ∃ i, ev.tid = .go i) ∧
    StartControlLoops a out namespaces (List.replicate (namespaces.length + 1) .main)
      = ⟨.done, namespaces.map (fun ns => (ns, GState.start)),
          tag .main (namespaces.map Action.go ++ [.ret])⟩ := by
  refine ⟨pc_StartControlLoops _ _ _ _, main_acts _ _ _ _, ?_, ?_⟩
  · intro ev hev e he
    cases ht : ev.tid with
    | go i => exact ⟨i, rfl⟩
    | main =>
      have hm := mem_actsOf _ ev hev
      rw [ht, main_acts, he] at hm
      exfalso
      rcases List.mem_append.1 hm with h1 | h1
      · obtain ⟨n, -, hn⟩ := List.mem_map.1 h1
        cases hn
      · by_cases hlt : namespaces.length < sched.count .main <;> simp [hlt] at h1
  · have := run_mains a out namespaces [] []
    simpa [StartControlLoops, init] using this

theorem history_performable (a : Args) (o : Outcome) (ns : String) (st : GState)
    (x : Action) (h : x ∈ history a o ns st) : performable a x = true := by
  cases st with
  | start => simp [history] at h
  | inLoop =>
    simp only [history, calls, List.mem_cons, List.mem_singleton, List.not_mem_nil,
      or_false] at h
    rcases h with h | h <;> subst h <;> simp [performable]
  | sending e =>
    simp only [history, calls, List.mem_append, List.mem_cons, List.mem_singleton,
      List.not_mem_nil, or_false] at h
    rcases h with (h | h) | h | h <;> subst h <;> simp [performable]
  | done =>
    simp only [history] at h
    split at h
    · simp only [calls, List.mem_append, List.mem_cons, List.mem_singleton,
        List.not_mem_nil, or_false] at h
      rcases h with (h | h) | h | h | h | h <;> subst h <;> simp [performable]
    · simp only [calls, List.mem_append, List.mem_cons, List.mem_singleton,
        List.not_mem_nil, or_false] at h
      rcases h with (h | h) | h | h <;> subst h <;> simp [performable]

theorem trace_performable (a : Args) (out : Nat → Outcome) (namespaces : List String)
    (sched : List Label) (ev : Event)
    (h : ev ∈ (StartControlLoops a out namespaces sched).trace) :
    performable a ev.act = true := by
  have hm := mem_actsOf _ ev h
  cases ht : ev.tid with
  | main =>
    rw [ht, main_acts] at hm
    rcases List.mem_append.1 hm with h1 | h1
    · obtain ⟨n, -, hn⟩ := List.mem_map.1 h1
      rw [← hn]
      rfl
    · by_cases hlt : namespaces.length < sched.count .main
      · simp [hlt] at h1
        rw [h1]
        rfl
      · simp [hlt] at h1
  | go k =>
    rw [ht] at hm
    have hi := (threadInv_StartControlLoops a out namespaces sched).1 k
    rcases hg : (StartControlLoops a out namespaces sched).gs[k]? with _ | ⟨ns, st⟩
    · simp only [hg] at hi
      simp [hi] at hm
    · simp only [hg] at hi
      rw [hi.2] at hm
      exact history_performable a _ ns st _ hm

theorem agreeOff_step (a : Args) (out1 out2 : Nat → Outcome) (i : Nat)
    (ho : ∀ j, j ≠ i → out1 j = out2 j) (s t : State) (l : Label) (h : AgreeOff i s t) :
    AgreeOff i ((step a out1 s l).getD s) ((step a out2 t l).getD t) := by
  obtain ⟨pc, gs1, tr1⟩ := s
  obtain ⟨pc2, gs2, tr2⟩ := t
  obtain ⟨h1, h2, h3⟩ := h
  simp only at h1 h2 h3
  subst h1
  have hlen : gs1.length = gs2.length := by
    simpa using congrArg List.length h2
  have hset : ∀ (gs : List (String × GState)) (k : Nat) (ns : String) (st st2 : GState),
      gs[k]? = some (ns, st) → (gs.set k (ns, st2)).map Prod.fst = gs.map Prod.fst :=
    fun gs k ns st st2 hk => map_fst_set_of_get gs k ns st st2 hk
  cases l with
  | main =>
    cases pc with
    | done => exact ⟨rfl, h2, h3⟩
    | range rest =>
      cases rest with
      | nil => exact ⟨rfl, h2, h3⟩
      | cons ns rest =>
        refine ⟨rfl, by simp [step, h2], fun j hj => ?_⟩
        simp [step, List.getElem?_append, hlen, h3 j hj]
  | go k =>
    by_cases hk : k = i
    · subst hk
      have e1 : ∀ (o : Nat → Outcome) (gs : List (String × GState)) (tr : List Event),
          ((step a o ⟨pc, gs, tr⟩ (.go k)).getD ⟨pc, gs, tr⟩).pc = pc ∧
          ((step a o ⟨pc, gs, tr⟩ (.go k)).getD ⟨pc, gs, tr⟩).gs.map Prod.fst
            = gs.map Prod.fst ∧
          ∀ j, j ≠ k → ((step a o ⟨pc, gs, tr⟩ (.go k)).getD ⟨pc, gs, tr⟩).gs[j]? = gs[j]? := by
        intro o gs tr
        simp only [step]
        split
        · rename_i ns hj
          exact ⟨rfl, hset gs k ns _ _ hj, fun j hj2 => by simp [List.getElem?_set, Ne.symm hj2]⟩
        · rename_i ns hj
          split
          · exact ⟨rfl, rfl, fun _ _ => rfl⟩
          · exact ⟨rfl, hset gs k ns _ _ hj,
              fun j hj2 => by simp [List.getElem?_set, Ne.symm hj2]⟩
          · exact ⟨rfl, hset gs k ns _ _ hj,
              fun j hj2 => by simp [List.getElem?_set, Ne.symm hj2]⟩
        · exact ⟨rfl, rfl, fun _ _ => rfl⟩
      obtain ⟨a1, a2, a3⟩ := e1 out1 gs1 tr1
      obtain ⟨b1, b2, b3⟩ := e1 out2 gs2 tr2
      exact ⟨a1.trans b1.symm, (a2.trans h2).trans b2.symm,
        fun j hj => ((a3 j hj).trans (h3 j hj)).trans (b3 j hj).symm⟩
    · have hg := h3 k hk
      have hout := ho k hk
      rcases hg2 : gs2[k]? with _ | ⟨ns, st⟩
      · rw [hg2] at hg
        simp only [step, hg, hg2]
        exact ⟨rfl, h2, h3⟩
      · rw [hg2] at hg
        have hs1 := hset gs1 k ns st
        have hs2 := hset gs2 k ns st
        cases st with
        | start =>
          simp only [step, hg, hg2, Option.getD_some]
          refine ⟨rfl, by rw [hs1 _ hg, hs2 _ hg2, h2], fun j hj => ?_⟩
          simp [List.getElem?_set, hlen, h3 j hj]
        | inLoop =>
          simp only [step, hg, hg2, hout]
          rcases out2 k with _ | _ | e
          · exact ⟨rfl, h2, h3⟩
          · refine ⟨rfl, by simp only [Option.getD_some]; rw [hs1 _ hg, hs2 _ hg2, h2],
              fun j hj => ?_⟩
            simp [List.getElem?_set, hlen, h3 j hj]
          · refine ⟨rfl, by simp only [Option.getD_some]; rw [hs1 _ hg, hs2 _ hg2, h2],
              fun j hj => ?_⟩
            simp [List.getElem?_set, hlen, h3 j hj]
        | sending e =>
          simp only [step, hg, hg2]
          exact ⟨rfl, h2, h3⟩
        | done =>
          simp only [step, hg, hg2]
          exact ⟨rfl, h2, h3⟩
  | recv k =>
    by_cases hk : k = i
    · subst hk
      have e1 : ∀ (o : Nat → Outcome) (gs : List (String × GState)) (tr : List Event),
          ((step a o ⟨pc, gs, tr⟩ (.recv k)).getD ⟨pc, gs, tr⟩).pc = pc ∧
          ((step a o ⟨pc, gs, tr⟩ (.recv k)).getD ⟨pc, gs, tr⟩).gs.map Prod.fst
            = gs.map Prod.fst ∧
          ∀ j, j ≠ k →
            ((step a o ⟨pc, gs, tr⟩ (.recv k)).getD ⟨pc, gs, tr⟩).gs[j]? = gs[j]? := by
        intro o gs tr
        simp only [step]
        split
        · rename_i ns e hj
          exact ⟨rfl, hset gs k ns _ _ hj, fun j hj2 => by simp [List.getElem?_set, Ne.symm hj2]⟩
        · exact ⟨rfl, rfl, fun _ _ => rfl⟩
      obtain ⟨a1, a2, a3⟩ := e1 out1 gs1 tr1
      obtain ⟨b1, b2, b3⟩ := e1 out2 gs2 tr2
      exact ⟨a1.trans b1.symm, (a2.trans h2).trans b2.symm,
        fun j hj => ((a3 j hj).trans (h3 j hj)).trans (b3 j hj).symm⟩
    · have hg := h3 k hk
      rcases hg2 : gs2[k]? with _ | ⟨ns, st⟩
      · rw [hg2] at hg
        simp only [step, hg, hg2]
        exact ⟨rfl, h2, h3⟩
      · rw [hg2] at hg
        have hs1 := hset gs1 k ns st
        have hs2 := hset gs2 k ns st
        cases st with
        | sending e =>
          simp only [step, hg, hg2, Option.getD_some]
          refine ⟨rfl, by rw [hs1 _ hg, hs2 _ hg2, h2], fun j hj => ?_⟩
          simp [List.getElem?_set, hlen, h3 j hj]
        | _ =>
          simp only [step, hg, hg2]
          exact ⟨rfl, h2, h3⟩

theorem agreeOff_run (a : Args) (out1 out2 : Nat → Outcome) (i : Nat)
    (ho : ∀ j, j ≠ i → out1 j = out2 j) (s t : State) (sched : List Label)
    (h : AgreeOff i s t) : AgreeOff i (run a out1 s sched) (run a out2 t sched) := by
  induction sched generalizing s t with
  | nil => exact h
  | cons l ls ih => exact ih _ _ (agreeOff_step a out1 out2 i ho s t l h)

theorem errorfMsg_contains (ns : String) (e : GoError) :
    ns.toList <:+: (errorfMsg ns e).toList := by
  refine ⟨"failed to start control loop for namespace ".toList,
    ", skipping (".toList ++ e.Error.toList ++ ")".toList, ?_⟩
  simp [errorfMsg, String.toList, List.append_assoc]

/-- C5: two runs of `StartControlLoops` on the same arguments and under the
same schedule, whose outcomes differ at most for the goroutine of index `i`,
agree on every other goroutine: whether it is launched, the state it is in and
the actions it has performed (the calls it made, with which context, what it
logged and sent); the supervisor's own thread behaves alike too.  In no run is
`errCh` closed or a context cancelled, and every call of `StartControlLoop`
receives the context `StartControlLoops` was given. -/
theorem C5_siblings_are_isolated (a : Args) (out1 out2 : Nat → Outcome)
    (namespaces : List String) (sched : List Label) (i : Nat)
    (h : ∀ j, j ≠ i → out1 j = out2 j) :
    (∀ j, j ≠ i →
      (StartControlLoops a out1 namespaces sched).gs[j]?
        = (StartControlLoops a out2 namespaces sched).gs[j]? ∧
      actsOf (.go j) (StartControlLoops a out1 namespaces sched).trace
        = actsOf (.go j) (StartControlLoops a out2 namespaces sched).trace) ∧
    (StartControlLoops a out1 namespaces sched).pc
      = (StartControlLoops a out2 namespaces sched).pc ∧
    actsOf .main (StartControlLoops a out1 namespaces sched).trace
      = actsOf .main (StartControlLoops a out2 namespaces sched).trace ∧
    (∀ ev ∈ (StartControlLoops a out1 namespaces sched).trace,
      ev.act ≠ .closeErrCh ∧ (∀ c, ev.act ≠ .cancel c) ∧
      (∀ c iface cm lk lc, ev.act = .startControlLoop c iface cm lk lc → c = a.ctx)) := by
  have hr := agreeOff_run a out1 out2 i h (init namespaces) (init namespaces) sched
    ⟨rfl, rfl, fun _ _ => rfl⟩
  obtain ⟨h1, -, h3⟩ := hr
  refine ⟨fun j hj => ⟨h3 j hj, ?_⟩, h1, ?_, ?_⟩
  · have t1 := (threadInv_StartControlLoops a out1 namespaces sched).1 j
    have t2 := (threadInv_StartControlLoops a out2 namespaces sched).1 j
    have hg := h3 j hj
    change (StartControlLoops a out1 namespaces sched).gs[j]?
      = (StartControlLoops a out2 namespaces sched).gs[j]? at hg
    rw [hg] at t1
    rcases hg2 : (StartControlLoops a out2 namespaces sched).gs[j]? with _ | ⟨ns, st⟩
    · simp only [hg2] at t1 t2
      rw [t1, t2]
    · simp only [hg2] at t1 t2
      rw [t1.2, t2.2, h j hj]
  · rw [main_acts, main_acts]
  · intro ev hev
    have hp := trace_performable a out1 namespaces sched ev hev
    refine ⟨?_, ?_, ?_⟩
    · intro hc
      rw [hc] at hp
      simp [performable] at hp
    · intro c hc
      rw [hc] at hp
      simp [performable] at hp
    · intro c iface cm lk lc hc
      rw [hc] at hp
      simpa [performable] using hp

/-- Witness for C5: the loop of `team-a` fails in one run and keeps running
in the other; the goroutine of `team-b` is in its loop in both. -/
theorem C5_siblings_are_isolated_witness :
    (StartControlLoops ⟨⟨7⟩, fun ns => ⟨ns.length⟩, 1, 2, 3⟩
        (fun k => if k = 0 then .returns (some ⟨"connection refused"⟩) else .blocks)
        ["team-a", "team-b"] [.main, .main, .main, .go 0, .go 1, .go 0, .recv 0]).gs[1]?
      = (StartControlLoops ⟨⟨7⟩, fun ns => ⟨ns.length⟩, 1, 2, 3⟩ (fun _ => .blocks)
        ["team-a", "team-b"] [.main, .main, .main, .go 0, .go 1, .go 0, .recv 0]).gs[1]? ∧
    (StartControlLoops ⟨⟨7⟩, fun ns => ⟨ns.length⟩, 1, 2, 3⟩ (fun _ => .blocks)
        ["team-a", "team-b"] [.main, .main, .main, .go 0, .go 1, .go 0, .recv 0]).gs[1]?
      = some ("team-b", .inLoop) :=
  ⟨((C5_siblings_are_isolated ⟨⟨7⟩, fun ns => ⟨ns.length⟩, 1, 2, 3⟩
      (fun k => if k = 0 then .returns (some ⟨"connection refused"⟩) else .blocks)
      (fun _ => .blocks) ["team-a", "team-b"]
      [.main, .main, .main, .go 0, .go 1, .go 0, .recv 0] 0
      (fun j hj => by simp [hj])).1 1 (by decide)).1,
    by decide⟩

/-- C8, as the claim states it, fails: the loop of `team-a` fails with
`connection refused`; the value sent on `errCh` is that error, and its
description does not contain `team-a`. -/
theorem C8_sent_error_lacks_namespace :
    sent (StartControlLoops ⟨⟨7⟩, fun ns => ⟨ns.length⟩, 1, 2, 3⟩
        (fun _ => .returns (some ⟨"connection refused"⟩)) ["team-a"]
        [.main, .main, .go 0, .go 0, .recv 0]).trace
      = [⟨"connection refused"⟩] ∧
    ¬ ("team-a".toList <:+: (GoError.mk "connection refused").Error.toList) := by
  constructor
  · decide
  · decide

/-- C8, amended: when the loop of the goroutine bound to `ns` fails with `e`,
the value the goroutine sends on `errCh` is `e` itself, unchanged (one send
once the goroutine has finished, none before); the namespace is embedded in
the message logged by `logger.Errorf`, which the goroutine has logged by the
time it sends. -/
theorem C8_error_forwarded_unchanged_namespace_logged (a : Args) (out : Nat → Outcome)
    (namespaces : List String) (sched : List Label) (i : Nat) (ns : String) (st : GState)
    (e : GoError)
    (hg : (StartControlLoops a out namespaces sched).gs[i]? = some (ns, st))
    (ho : out i = .returns (some e)) :
    sends (actsOf (.go i) (StartControlLoops a out namespaces sched).trace)
      = (if st = .done then [e] else []) ∧
    (∀ m, Action.errorf m ∈ actsOf (.go i) (StartControlLoops a out namespaces sched).trace →
      m = errorfMsg ns e ∧ ns.toList <:+: m.toList) ∧
    ((st = .done ∨ st = .sending e) →
      Action.errorf (errorfMsg ns e)
        ∈ actsOf (.go i) (StartControlLoops a out namespaces sched).trace) := by
  have hi := (threadInv_StartControlLoops a out namespaces sched).1 i
  simp only [hg] at hi
  obtain ⟨hc, hh⟩ := hi
  have hcont : ns.data <:+: (errorfMsg ns e).data := errorfMsg_contains ns e
  rw [hh]
  cases st with
  | start => simp [history, sends]
  | inLoop => simp [history, sends, calls]
  | sending e2 =>
    simp only [consistent, ho, Outcome.returns.injEq, Option.some.injEq] at hc
    subst hc
    simp [history, sends, calls, hcont]
  | done => simp [history, ho, sends, calls, hcont]

/-- Witness for the amended C8: the goroutine of `team-a` has finished after
its loop failed with `connection refused`. -/
theorem C8_error_forwarded_unchanged_witness :
    (StartControlLoops ⟨⟨7⟩, fun ns => ⟨ns.length⟩, 1, 2, 3⟩
        (fun _ => .returns (some ⟨"connection refused"⟩)) ["team-a"]
        [.main, .main, .go 0, .go 0, .recv 0]).gs[0]? = some ("team-a", .done) ∧
    sends (actsOf (.go 0) (StartControlLoops ⟨⟨7⟩, fun ns => ⟨ns.length⟩, 1, 2, 3⟩
        (fun _ => .returns (some ⟨"connection refused"⟩)) ["team-a"]
        [.main, .main, .go 0, .go 0, .recv 0]).trace)
      = [⟨"connection refused"⟩] :=
  ⟨by decide,
    (C8_error_forwarded_unchanged_namespace_logged ⟨⟨7⟩, fun ns => ⟨ns.length⟩, 1, 2, 3⟩
      (fun _ => .returns (some ⟨"connection refused"⟩)) ["team-a"]
      [.main, .main, .go 0, .go 0, .recv 0] 0 "team-a" .done ⟨"connection refused"⟩
      (by decide) rfl).1⟩

theorem sent_append_tag (tr : List Event) (t : Tid) (acts : List Action) :
    sent (tr ++ tag t acts) = sent tr ++ sends acts := by
  simp [sent, sends, tag, List.filterMap_append, Function.comp_def]

theorem finishedFailures_snoc_start (out : Nat → Outcome) (k : Nat)
    (gs : List (String × GState)) (ns : String) :
    finishedFailures out k (gs ++ [(ns, .start)]) = finishedFailures out k gs := by
  induction gs generalizing k with
  | nil => simp [finishedFailures, contrib]
  | cons g rest ih => simp [finishedFailures, ih]

theorem finishedFailures_set (out : Nat → Outcome) (k j : Nat)
    (gs : List (String × GState)) (ns : String) (st st2 : GState)
    (hj : gs[j]? = some (ns, st)) (hst : st ≠ .done) :
    (finishedFailures out k (gs.set j (ns, st2)) : Multiset GoError)
      = (contrib out (k + j) st2 : Multiset GoError) + finishedFailures out k gs := by
  induction gs generalizing k j with
  | nil => simp at hj
  | cons g rest ih =>
    cases j with
    | zero =>
      simp only [List.getElem?_cons_zero, Option.some.injEq] at hj
      subst hj
      simp [finishedFailures, contrib, hst, ← Multiset.coe_add]
    | succ j =>
      simp only [List.getElem?_cons_succ] at hj
      have := ih (k + 1) j hj
      simp only [List.set_cons_succ, finishedFailures, ← Multiset.coe_add, this]
      have hk : k + 1 + j = k + (j + 1) := by omega
      rw [hk]
      exact add_left_comm _ _ _

theorem sentInv_step (a : Args) (out : Nat → Outcome) (s : State) (l : Label)
    (ht : ThreadInv a out s)
    (h : (sent s.trace : Multiset GoError) = finishedFailures out 0 s.gs) :
    (sent ((step a out s l).getD s).trace : Multiset GoError)
      = finishedFailures out 0 ((step a out s l).getD s).gs := by
  obtain ⟨pc, gs, tr⟩ := s
  simp only at h
  cases l with
  | main =>
    cases pc with
    | done => simpa [step] using h
    | range rest =>
      cases rest with
      | nil => simpa [step, sent_append_tag, sends] using h
      | cons ns rest =>
        simpa [step, sent_append_tag, sends, finishedFailures_snoc_start] using h
  | go j =>
    simp only [step]
    split
    · rename_i ns hj
      simp only [Option.getD_some, sent_append_tag]
      rw [finishedFailures_set out 0 j gs ns .start .inLoop hj (by simp)]
      simp [sends, calls, contrib, h]
    · rename_i ns hj
      split
      · simpa using h
      · rename_i ho
        simp only [Option.getD_some, sent_append_tag]
        rw [finishedFailures_set out 0 j gs ns .inLoop .done hj (by simp)]
        simp [sends, contrib, h, ho, Outcome.failure]
      · rename_i e ho
        simp only [Option.getD_some, sent_append_tag]
        rw [finishedFailures_set out 0 j gs ns .inLoop (.sending e) hj (by simp)]
        simp [sends, contrib, h]
    · simpa using h
  | recv j =>
    simp only [step]
    split
    · rename_i ns e hj
      have hc := ht.1 j
      simp only [hj, consistent] at hc
      simp only [Option.getD_some, sent_append_tag]
      rw [finishedFailures_set out 0 j gs ns (.sending e) .done hj (by simp)]
      have ho := hc.1
      have hs : sends [Action.send e, Action.ret] = [e] := rfl
      have hcn : contrib out (0 + j) .done = [e] := by simp [contrib, ho, Outcome.failure]
      rw [hs, hcn, ← Multiset.coe_add, h, add_comm]
    · simpa using h

theorem sentInv_run (a : Args) (out : Nat → Outcome) (s : State) (sched : List Label)
    (ht : ThreadInv a out s)
    (h : (sent s.trace : Multiset GoError) = finishedFailures out 0 s.gs) :
    (sent (run a out s sched).trace : Multiset GoError)
      = finishedFailures out 0 (run a out s sched).gs := by
  induction sched generalizing s with
  | nil => exact h
  | cons l ls ih => exact ih _ (threadInv_step a out s l ht) (sentInv_step a out s l ht h)

theorem sent_StartControlLoops (a : Args) (out : Nat → Outcome) (namespaces : List String)
    (sched : List Label) :
    (sent (StartControlLoops a out namespaces sched).trace : Multiset GoError)
      = finishedFailures out 0 (StartControlLoops a out namespaces sched).gs :=
  sentInv_run a out _ sched (threadInv_init a out namespaces) rfl

theorem filterMap_range_succ (out : Nat → Outcome) (k n : Nat) :
    (List.range' k (n + 1)).filterMap (fun i => (out i).failure)
      = (out k).failure.toList ++ (List.range' (k + 1) n).filterMap (fun i => (out i).failure) := by
  rw [List.range'_succ, List.filterMap_cons]
  cases (out k).failure <;> simp

theorem finishedFailures_sublist (out : Nat → Outcome) (k : Nat)
    (gs : List (String × GState)) :
    (finishedFailures out k gs).Sublist
      ((List.range' k gs.length).filterMap (fun i => (out i).failure)) := by
  induction gs generalizing k with
  | nil => simp [finishedFailures]
  | cons g rest ih =>
    rw [List.length_cons, filterMap_range_succ]
    simp only [finishedFailures]
    refine List.Sublist.append ?_ (ih (k + 1))
    unfold contrib
    split
    · exact List.Sublist.refl _
    · exact List.nil_sublist _

theorem finishedFailures_final (out : Nat → Outcome) (k : Nat) (gs : List (String × GState))
    (h : ∀ i ns st, gs[i]? = some (ns, st) → st = .done ∨ (out (k + i)).failure = none) :
    finishedFailures out k gs
      = (List.range' k gs.length).filterMap (fun i => (out i).failure) := by
  induction gs generalizing k with
  | nil => simp [finishedFailures]
  | cons g rest ih =>
    rw [List.length_cons, filterMap_range_succ]
    simp only [finishedFailures]
    have h0 := h 0 g.1 g.2 (by simp)
    have hrest : ∀ i ns st, rest[i]? = some (ns, st) →
        st = .done ∨ (out (k + 1 + i)).failure = none := by
      intro i ns st hi
      have := h (i + 1) ns st (by simpa using hi)
      have hk : k + (i + 1) = k + 1 + i := by omega
      rwa [hk] at this
    rw [ih (k + 1) hrest]
    congr 1
    unfold contrib
    rcases h0 with h0 | h0
    · simp [h0]
    · rw [Nat.add_zero] at h0
      simp [h0]

theorem final_step (a : Args) (out : Nat → Outcome) (s : State) (l : Label) (i : Nat)
    (h : final out s i) : final out ((step a out s l).getD s) i := by
  obtain ⟨pc, gs, tr⟩ := s
  obtain ⟨ns, h⟩ := h
  simp only at h
  have hsome : ∃ st, gs[i]? = some (ns, st) := by
    rcases h with h | ⟨h, -⟩ <;> exact ⟨_, h⟩
  have hlt : i < gs.length := by
    obtain ⟨st, hst⟩ := hsome
    by_contra hge
    simp [List.getElem?_eq_none (Nat.le_of_not_lt hge)] at hst
  cases l with
  | main =>
    cases pc with
    | done => exact ⟨ns, h⟩
    | range rest =>
      cases rest with
      | nil => exact ⟨ns, h⟩
      | cons n rest =>
        refine ⟨ns, ?_⟩
        simpa [step, List.getElem?_append, hlt] using h
  | go j =>
    by_cases hji : j = i
    · subst hji
      rcases h with h | ⟨h, ho⟩
      · simp only [step, h]
        exact ⟨ns, Or.inl h⟩
      · simp only [step, h, ho]
        exact ⟨ns, Or.inr ⟨h, ho⟩⟩
    · refine ⟨ns, ?_⟩
      simp only [step]
      split
      · simpa [List.getElem?_set, hji] using h
      · split
        · simpa using h
        · simpa [List.getElem?_set, hji] using h
        · simpa [List.getElem?_set, hji] using h
      · simpa using h
  | recv j =>
    by_cases hji : j = i
    · subst hji
      rcases h with h | ⟨h, ho⟩
      · simp only [step, h]
        exact ⟨ns, Or.inl h⟩
      · simp only [step, h]
        exact ⟨ns, Or.inr ⟨h, ho⟩⟩
    · refine ⟨ns, ?_⟩
      simp only [step]
      split
      · simpa [List.getElem?_set, hji] using h
      · simpa using h

theorem final_run (a : Args) (out : Nat → Outcome) (s : State) (sched : List Label) (i : Nat)
    (h : final out s i) : final out (run a out s sched) i := by
  induction sched generalizing s with
  | nil => exact h
  | cons l ls ih => exact ih _ (final_step a out s l i h)

theorem length_step (a : Args) (out : Nat → Outcome) (s : State) (l : Label) :
    s.gs.length ≤ ((step a out s l).getD s).gs.length := by
  have h := congrArg List.length (names_step a out s l)
  simp only [List.length_append, List.length_map] at h
  obtain ⟨pc, gs, tr⟩ := s
  cases l with
  | main =>
    cases pc with
    | done => simp [step]
    | range rest => cases rest <;> simp [step]
  | go j =>
    simp only [step]
    split
    · simp
    · split <;> simp
    · simp
  | recv j =>
    simp only [step]
    split <;> simp

theorem length_run (a : Args) (out : Nat → Outcome) (s : State) (sched : List Label) :
    s.gs.length ≤ (run a out s sched).gs.length := by
  induction sched generalizing s with
  | nil => exact Nat.le_refl _
  | cons l ls ih => exact Nat.le_trans (length_step a out s l) (ih _)

theorem finish_one (a : Args) (out : Nat → Outcome) (s : State) (i : Nat)
    (hlt : i < s.gs.length) : final out (run a out s [.go i, .go i, .recv i]) i := by
  obtain ⟨pc, gs, tr⟩ := s
  simp only at hlt
  obtain ⟨⟨ns, st⟩, hg⟩ : ∃ g, gs[i]? = some g := ⟨gs[i], List.getElem?_eq_getElem hlt⟩
  cases st with
  | start =>
    rcases ho : out i with _ | _ | e
    · refine ⟨ns, Or.inr ⟨?_, ho⟩⟩
      simp [run, step, hg, ho, List.getElem?_set, hlt]
    · refine ⟨ns, Or.inl ?_⟩
      simp [run, step, hg, ho, List.getElem?_set, hlt]
    · refine ⟨ns, Or.inl ?_⟩
      simp [run, step, hg, ho, List.getElem?_set, hlt]
  | inLoop =>
    rcases ho : out i with _ | _ | e
    · refine ⟨ns, Or.inr ⟨?_, ho⟩⟩
      simp [run, step, hg, ho]
    · refine ⟨ns, Or.inl ?_⟩
      simp [run, step, hg, ho, List.getElem?_set, hlt]
    · refine ⟨ns, Or.inl ?_⟩
      simp [run, step, hg, ho, List.getElem?_set, hlt]
  | sending e =>
    refine ⟨ns, Or.inl ?_⟩
    simp [run, step, hg, List.getElem?_set, hlt]
  | done =>
    refine ⟨ns, Or.inl ?_⟩
    simp [run, step, hg]

theorem finishAll_final (a : Args) (out : Nat → Outcome) (n : Nat) (s : State)
    (hn : n ≤ s.gs.length) (i : Nat) (hi : i < n) :
    final out (run a out s (finishAll n)) i := by
  induction n with
  | zero => omega
  | succ n ih =>
    simp only [finishAll, run_concat]
    by_cases hin : i < n
    · exact final_run a out _ _ i (ih (by omega) hin)
    · have : i = n := by omega
      subst this
      exact finish_one a out _ i (Nat.lt_of_lt_of_le hn (length_run a out s _))

theorem length_of_done (a : Args) (out : Nat → Outcome) (namespaces : List String)
    (sched : List Label) (h : namespaces.length < sched.count .main) :
    (StartControlLoops a out namespaces sched).pc = .done ∧
    (StartControlLoops a out namespaces sched).gs.length = namespaces.length := by
  constructor
  · rw [pc_StartControlLoops]
    simp [pcAfter, h]
  · have := congrArg List.length (gs_names a out namespaces sched)
    rw [List.length_map, List.take_of_length_le (Nat.le_of_lt h)] at this
    exact this

theorem sent_of_final (a : Args) (out : Nat → Outcome) (namespaces : List String)
    (sched : List Label) (hpc : (StartControlLoops a out namespaces sched).pc = .done)
    (hf : ∀ i, i < namespaces.length → final out (StartControlLoops a out namespaces sched) i) :
    (sent (StartControlLoops a out namespaces sched).trace : Multiset GoError)
      = failures out namespaces.length := by
  have hlen : (StartControlLoops a out namespaces sched).gs.length = namespaces.length := by
    rw [pc_StartControlLoops] at hpc
    have hlt : namespaces.length < sched.count .main := by
      by_contra hn
      simp [pcAfter, hn] at hpc
    exact (length_of_done a out namespaces sched hlt).2
  rw [sent_StartControlLoops, failures, List.range_eq_range', ← hlen]
  congr 1
  apply finishedFailures_final
  intro i ns st hg
  have hi : i < namespaces.length := by
    rw [← hlen]
    by_contra hge
    simp [List.getElem?_eq_none (Nat.le_of_not_lt hge)] at hg
  obtain ⟨ns2, h2 | ⟨-, h2⟩⟩ := hf i hi
  · rw [hg] at h2
    simp only [Option.some.injEq, Prod.mk.injEq] at h2
    exact Or.inl h2.2
  · right
    simp [h2, Outcome.failure]

/-- C4: the values `StartControlLoops` sends on `errCh` are the non-nil errors
returned by the calls of `StartControlLoop`, as multisets.  At any moment the
values sent so far are among those failures, each at most once; the goroutine
of index `i` has sent the failure of its own call, unchanged, exactly when it
has finished, and nothing if its call returned `nil` or has not returned; the
supervisor's own thread sends nothing.  Once the supervisor has returned and
every goroutine has run to its end the two multisets are equal, and the
schedule `drain` brings any run to that point. -/
theorem C4_failures_sent_exactly_once (a : Args) (out : Nat → Outcome)
    (namespaces : List String) (sched : List Label) :
    (sent (StartControlLoops a out namespaces sched).trace : Multiset GoError)
      ≤ failures out namespaces.length ∧
    (∀ (i : Nat) (ns : String) (st : GState),
      (StartControlLoops a out namespaces sched).gs[i]? = some (ns, st) →
      sends (actsOf (.go i) (StartControlLoops a out namespaces sched).trace)
        = (if st = .done then (out i).failure.toList else [])) ∧
    sends (actsOf .main (StartControlLoops a out namespaces sched).trace) = [] ∧
    ((StartControlLoops a out namespaces sched).pc = .done →
      (∀ i, i < namespaces.length →
        final out (StartControlLoops a out namespaces sched) i) →
      (sent (StartControlLoops a out namespaces sched).trace : Multiset GoError)
        = failures out namespaces.length) ∧
    (sent (StartControlLoops a out namespaces (sched ++ drain namespaces.length)).trace
        : Multiset GoError)
      = failures out namespaces.length := by
  refine ⟨?_, ?_, ?_, sent_of_final a out namespaces sched, ?_⟩
  · rw [sent_StartControlLoops, failures, List.range_eq_range', Multiset.coe_le]
    refine List.Sublist.subperm ((finishedFailures_sublist out 0 _).trans ?_)
    refine List.Sublist.filterMap _ ?_
    rw [List.range'_sublist_right]
    have := congrArg List.length (gs_names a out namespaces sched)
    rw [List.length_map, List.length_take] at this
    omega
  · intro i ns st hg
    have hi := (threadInv_StartControlLoops a out namespaces sched).1 i
    simp only [hg] at hi
    rw [hi.2]
    cases st with
    | start => simp [history, sends]
    | inLoop => simp [history, sends, calls]
    | sending e => simp [history, sends, calls]
    | done =>
      have hc := hi.1
      simp only [consistent] at hc
      rcases ho : out i with _ | _ | e
      · exact (hc ho).elim
      · simp [history, sends, calls, Outcome.failure]
      · simp [history, sends, calls, Outcome.failure]
  · rw [main_acts]
    have hgo : ∀ l : List String, sends (l.map Action.go) = [] := by
      intro l
      induction l with
      | nil => rfl
      | cons x xs ih => simp [sends]
    have happ : ∀ x y : List Action, sends (x ++ y) = sends x ++ sends y := by
      intro x y
      simp [sends, List.filterMap_append]
    rw [happ, hgo]
    by_cases hlt : namespaces.length < sched.count .main <;> simp [hlt, sends]
  · have hcount : namespaces.length
        < (sched ++ drain namespaces.length).count .main := by
      simp only [drain, List.count_append, List.count_replicate_self]
      omega
    obtain ⟨hpc, hlen⟩ := length_of_done a out namespaces _ hcount
    refine sent_of_final a out namespaces _ hpc fun i hi => ?_
    have hc1 : namespaces.length
        < (sched ++ List.replicate (namespaces.length + 1) Label.main).count .main := by
      simp only [List.count_append, List.count_replicate_self]
      omega
    have hassoc : sched ++ drain namespaces.length
        = (sched ++ List.replicate (namespaces.length + 1) .main)
          ++ finishAll namespaces.length := by
      simp [drain]
    rw [hassoc, StartControlLoops_append]
    exact finishAll_final a out namespaces.length _
      (Nat.le_of_eq (length_of_done a out namespaces _ hc1).2.symm) i hi

end Claim
